import Mathlib

/-!
ADODB driver (`adodb.go`): binder, row cursor and variant decoding

The driver talks to an automation (OLE) object graph through four entry points of
`oleutil` / `ole`: `CallMethod`, `GetProperty`, `PutProperty` and `Release`.
The automation layer is external to the driver, so it is kept abstract here: a
world type `W` with a response function and a successor-state function.  The
driver's methods are embedded as state-passing functions over `W`.

Conventions of the embedding:
* `*ole.IDispatch` handles are the integer carried by the variant
  (`VARIANT.ToIDispatch` reinterprets `Val` as a pointer).
* The width of `int` and the largest length `make` accepts are parameters
  (`Platform`); `int(val.Val)` reduces the payload to that width.
* `defer x.Release()` is kept as an explicit stack that is run, last deferred
  first, on every exit of the function.
* `[]interface{}` is a list of dynamically typed values `GoValue`.
-/

namespace Adodb

/-! ## Values crossing the automation boundary -/

/-- An `*ole.IDispatch` pointer. -/
abbrev Handle := Int

/-- Mirror of `ole.VARIANT`: a type tag `VT` and the raw 64-bit payload `Val`. -/
structure VARIANT where
  VT : Nat
  Val : Int
  deriving DecidableEq, Repr

/-- Value of `ole.VT_I4`. -/
def VT_I4 : Nat := 3

/-- Mirror of `VARIANT.ToIDispatch`: the payload read as an object pointer. -/
def VARIANT.ToIDispatch (v : VARIANT) : Handle := v.Val

/-- Dynamically typed Go values that can sit in an `interface{}` slot.
Floats are kept as their IEEE-754 bit patterns. -/
inductive GoValue
  | nil
  | bool (b : Bool)
  | int (v : Int)
  | int16 (v : Int)
  | int32 (v : Int)
  | int64 (v : Int)
  | float32 (bits : Nat)
  | float64 (bits : Nat)
  | string (s : String)
  deriving DecidableEq, Repr

/-- The error an automation call reports (an HRESULT). -/
structure OleError where
  hr : Nat
  deriving DecidableEq, Repr

/-- Go `error` values the driver can return: an error handed back by the
automation layer, or an `errors.New(text)` value made by the driver itself. -/
inductive GoError
  | automation (e : OleError)
  | errorString (text : String)
  deriving DecidableEq, Repr

/-- The calls of `oleutil` that return a variant or an error. -/
inductive Call
  | CallMethod (disp : Handle) (name : String) (params : List VARIANT)
  | GetProperty (disp : Handle) (name : String)
  | PutProperty (disp : Handle) (name : String) (value : GoValue)
  deriving DecidableEq, Repr

/-- The automation layer: what a call answers in a given world, the world after
the call, the world after a `Release`, and `VARIANT.ToString`. -/
structure Automation (W : Type) where
  respond : W → Call → Except OleError VARIANT
  after : W → Call → W
  release : W → Handle → W
  ToString : VARIANT → String

/-! ## Integer and float conversions -/

/-- Two's-complement reduction of an integer to a signed `bits`-wide integer
(Go's `int16(x)`, `int32(x)` on an `int64`). -/
def wrapSigned (bits : Nat) (x : Int) : Int :=
  (x + 2 ^ (bits - 1)) % 2 ^ bits - 2 ^ (bits - 1)

/-- Position of the highest set bit of `n`, found in at most `fuel` halvings. -/
def floorLog2 : Nat → Nat → Nat
  | 0, _ => 0
  | fuel + 1, n => if 2 ≤ n then floorLog2 fuel (n / 2) + 1 else 0

/-- Round a positive natural number below `2 ^ 64` to IEEE-754 binary32
(nearest, ties to even) and give the exponent and 24-bit significand. -/
def roundToSingle (m : Nat) : Nat × Nat :=
  let e := floorLog2 64 m
  if e ≤ 23 then (e, m * 2 ^ (23 - e))
  else
    let shift := e - 23
    let q := m / 2 ^ shift
    let r := m % 2 ^ shift
    let half := 2 ^ (shift - 1)
    let q1 := if r > half ∨ (r = half ∧ q % 2 = 1) then q + 1 else q
    if q1 = 2 ^ 24 then (e + 1, 2 ^ 23) else (e, q1)

/-- Go's numeric conversion `float32(x)` of an `int64`, as the bit pattern of
the resulting float. -/
def float32OfInt64 (x : Int) : Nat :=
  if x = 0 then 0
  else
    let sign := if x < 0 then 1 else 0
    let (e, q) := roundToSingle x.natAbs
    sign * 2 ^ 31 + (e + 127) * 2 ^ 23 + (q - 2 ^ 23)

/-! ## Variant decoding: the `switch typ.Val` of `AdodbRows.Next` -/

/-- The type switch of `Next`: the value assigned to `dest[i]`, or `none` when
the case body is empty or no case matches. -/
def decodeField (ToString : VARIANT → String) (typ : Int) (val : VARIANT) : Option GoValue :=
  match typ with
  | 0 => none -- ADEMPTY
  | 2 => some (.int16 (wrapSigned 16 val.Val)) -- ADSMALLINT
  | 3 => some (.int32 (wrapSigned 32 val.Val)) -- ADINTEGER
  | 4 => some (.float32 (float32OfInt64 val.Val)) -- ADSINGLE
  | 5 => some (.int64 val.Val) -- ADDOUBLE
  | 6 => none -- ADCURRENCY
  | 7 => none -- ADDATE
  | 8 => some (.string (ToString val)) -- ADBSTR
  | 9 => none -- ADIDISPATCH
  | 10 => none -- ADERROR
  | 11 => none -- ADBOOLEAN
  | 12 => none -- ADVARIANT
  | 13 => none -- ADIUNKNOWN
  | 14 => none -- ADDECIMAL
  | 16 => none -- ADTINYINT
  | 17 => none -- ADUNSIGNEDTINYINT
  | 18 => none -- ADUNSIGNEDSMALLINT
  | 19 => none -- ADUNSIGNEDINT
  | 20 => none -- ADBIGINT
  | 21 => none -- ADUNSIGNEDBIGINT
  | 72 => none -- ADGUID
  | 128 => none -- ADBINARY
  | 129 => some (.string (ToString val)) -- ADCHAR
  | 130 => some (.string (ToString val)) -- ADWCHAR
  | 131 => some (.string (ToString val)) -- ADNUMERIC
  | 132 => some (.string (ToString val)) -- ADUSERDEFINED
  | 133 => some (.string (ToString val)) -- ADDBDATE
  | 134 => some (.string (ToString val)) -- ADDBTIME
  | 135 => some (.string (ToString val)) -- ADDBTIMESTAMP
  | 136 => some (.string (ToString val)) -- ADCHAPTER
  | 200 => some (.string (ToString val)) -- ADVARCHAR
  | 201 => some (.string (ToString val)) -- ADLONGVARCHAR
  | 202 => some (.string (ToString val)) -- ADVARWCHAR
  | 203 => some (.string (ToString val)) -- ADLONGVARWCHAR
  | 204 => none -- ADVARBINARY
  | 205 => none -- ADLONGVARBINARY
  | _ => none

/-- The effect of the switch on the destination slice: `dest[i] = v` or nothing. -/
def storeField (ToString : VARIANT → String) (typ : Int) (val : VARIANT) (i : Nat)
    (dest : List GoValue) : List GoValue :=
  match decodeField ToString typ val with
  | some v => dest.set i v
  | none => dest

/-! ## Deferred releases and the shared index lookup -/

/-- Run the deferred `Release` calls of a returning function; the head of the
list is the most recently deferred handle and is released first. -/
def runDeferred {W : Type} (au : Automation W) : List Handle → W → W
  | [], w => w
  | h :: rest, w => runDeferred au rest (au.release w h)

/-- The lookup `oleutil.CallMethod(coll, "Item", &varval)` with
`varval.VT = ole.VT_I4` and `varval.Val = int64(i)`. -/
def itemCall (coll : Handle) (i : Nat) : Call :=
  .CallMethod coll "Item" [⟨VT_I4, (i : Int)⟩]

/-! ## `AdodbStmt` -/

/-- Mirror of `AdodbStmt` (`c` is not used by the methods embedded here). -/
structure AdodbStmt where
  s : Handle
  ps : Handle
  deriving DecidableEq, Repr

/-- The `for i, v := range args` loop of `AdodbStmt.bind`; `i` is the index of
the head of the remaining arguments. -/
def bindLoop {W : Type} (au : Automation W) (ps : Handle) :
    Nat → List GoValue → List Handle → W → Option GoError × W
  | _, [], deferred, w => (none, runDeferred au deferred w)
  | i, v :: rest, deferred, w =>
    match au.respond w (itemCall ps i) with
    | .error err => (some (.automation err), runDeferred au deferred (au.after w (itemCall ps i)))
    | .ok val =>
      let w1 := au.after w (itemCall ps i)
      let item := val.ToIDispatch
      match au.respond w1 (.PutProperty item "Value" v) with
      | .error err =>
        (some (.automation err),
          runDeferred au (item :: deferred) (au.after w1 (.PutProperty item "Value" v)))
      | .ok _ =>
        bindLoop au ps (i + 1) rest (item :: deferred) (au.after w1 (.PutProperty item "Value" v))

/-- Mirror of `AdodbStmt.bind`. -/
def AdodbStmt.bind {W : Type} (au : Automation W) (s : AdodbStmt) (args : List GoValue) (w : W) :
    Option GoError × W :=
  bindLoop au s.ps 0 args [] w

/-- Mirror of `AdodbRows`: statement, recordset handle, cached column count and
cached column names (a nil slice is the empty list). -/
structure AdodbRows where
  s : AdodbStmt
  rc : Handle
  nc : Int
  cols : List String
  deriving DecidableEq, Repr

/-- Mirror of `AdodbStmt.Query`. -/
def AdodbStmt.Query {W : Type} (au : Automation W) (s : AdodbStmt) (args : List GoValue) (w : W) :
    Except GoError AdodbRows × W :=
  match s.bind au args w with
  | (some err, w1) => (.error err, w1)
  | (none, w1) =>
    match au.respond w1 (.CallMethod s.s "Execute" []) with
    | .error err => (.error (.automation err), au.after w1 (.CallMethod s.s "Execute" []))
    | .ok rc => (.ok ⟨s, rc.ToIDispatch, -1, []⟩, au.after w1 (.CallMethod s.s "Execute" []))

/-- Mirror of `driver.Result` as far as `Exec` produces it. -/
inductive DriverResult
  | DDLSuccess
  deriving DecidableEq, Repr

/-- Mirror of `AdodbStmt.Exec`. -/
def AdodbStmt.Exec {W : Type} (au : Automation W) (s : AdodbStmt) (args : List GoValue) (w : W) :
    Except GoError DriverResult × W :=
  match s.bind au args w with
  | (some err, w1) => (.error err, w1)
  | (none, w1) =>
    match au.respond w1 (.CallMethod s.s "Execute" []) with
    | .error err => (.error (.automation err), au.after w1 (.CallMethod s.s "Execute" []))
    | .ok _ => (.ok .DDLSuccess, au.after w1 (.CallMethod s.s "Execute" []))

/-! ## `AdodbRows.Columns` -/

/-- The `for i := 0; i < rc.nc; i++` loop of `Columns`, run for `k` more
iterations from index `i`.  The flag is `false` when the loop left through one
of its `return []string {}` exits; `cols` is `rc.cols` as mutated so far. -/
def columnsLoop {W : Type} (au : Automation W) (fields : Handle) :
    Nat → Nat → List String → W → Bool × List String × W
  | 0, _, cols, w => (true, cols, w)
  | k + 1, i, cols, w =>
    match au.respond w (itemCall fields i) with
    | .error _ => (false, cols, au.after w (itemCall fields i))
    | .ok val =>
      let w1 := au.after w (itemCall fields i)
      let item := val.ToIDispatch
      match au.respond w1 (.GetProperty item "Name") with
      | .error _ => (false, cols, au.after w1 (.GetProperty item "Name"))
      | .ok name =>
        columnsLoop au fields k (i + 1) (cols.set i (au.ToString name))
          (au.release (au.after w1 (.GetProperty item "Name")) item)

/-- What the Go platform fixes for `Columns`: the width of `int` in bits, and
the largest length for which `make([]string, n)` yields a slice. -/
structure Platform where
  intBits : Nat
  maxLen : Nat

/-- Mirror of `AdodbRows.Columns`: the returned slice (`none` when
`make([]string, rc.nc)` does not yield a slice, the length being negative or
beyond what the platform accepts), the receiver after the call and the world
after the call.  `rc.nc = int(val.Val)` reduces the payload to the width of
`int`. -/
def AdodbRows.Columns {W : Type} (pf : Platform) (au : Automation W) (rc : AdodbRows) (w : W) :
    Option (List String) × AdodbRows × W :=
  if rc.nc ≠ (rc.cols.length : Int) then
    match au.respond w (.GetProperty rc.rc "Fields") with
    | .error _ => (some [], rc, au.after w (.GetProperty rc.rc "Fields"))
    | .ok unknown =>
      let w1 := au.after w (.GetProperty rc.rc "Fields")
      let fields := unknown.ToIDispatch
      match au.respond w1 (.GetProperty fields "Count") with
      | .error _ => (some [], rc, au.release (au.after w1 (.GetProperty fields "Count")) fields)
      | .ok val =>
        let w2 := au.after w1 (.GetProperty fields "Count")
        let nc := wrapSigned pf.intBits val.Val
        if nc < 0 ∨ (pf.maxLen : Int) < nc then
          (none, { rc with nc := nc }, au.release w2 fields)
        else
          match columnsLoop au fields nc.toNat 0 (List.replicate nc.toNat "") w2 with
          | (true, cols, w3) => (some cols, { rc with nc := nc, cols := cols }, au.release w3 fields)
          | (false, cols, w3) => (some [], { rc with nc := nc, cols := cols }, au.release w3 fields)
  else (some rc.cols, rc, w)

/-! ## `AdodbRows.Next` -/

/-- The `for i := range dest` loop of `Next`, run for `k` more iterations from
index `i`. -/
def nextLoop {W : Type} (au : Automation W) (fields : Handle) :
    Nat → Nat → List GoValue → List Handle → W → Option GoError × List GoValue × W
  | 0, _, dest, deferred, w => (none, dest, runDeferred au deferred w)
  | k + 1, i, dest, deferred, w =>
    match au.respond w (itemCall fields i) with
    | .error err =>
      (some (.automation err), dest, runDeferred au deferred (au.after w (itemCall fields i)))
    | .ok val =>
      let w1 := au.after w (itemCall fields i)
      let field := val.ToIDispatch
      match au.respond w1 (.GetProperty field "Type") with
      | .error err =>
        (some (.automation err), dest,
          runDeferred au (field :: deferred) (au.after w1 (.GetProperty field "Type")))
      | .ok typ =>
        let w2 := au.after w1 (.GetProperty field "Type")
        match au.respond w2 (.GetProperty field "Value") with
        | .error err =>
          (some (.automation err), dest,
            runDeferred au (field :: deferred) (au.after w2 (.GetProperty field "Value")))
        | .ok val =>
          let w3 := au.release (au.after w2 (.GetProperty field "Value")) field
          nextLoop au fields k (i + 1) (storeField au.ToString typ.Val val i dest)
            (field :: deferred) w3

/-- Mirror of `AdodbRows.Next`: the returned error (`none` is `nil`), the
destination slice after the call and the world after the call. -/
def AdodbRows.Next {W : Type} (au : Automation W) (rc : AdodbRows) (dest : List GoValue) (w : W) :
    Option GoError × List GoValue × W :=
  match au.respond w (.CallMethod rc.rc "MoveNext" []) with
  | .error err => (some (.automation err), dest, au.after w (.CallMethod rc.rc "MoveNext" []))
  | .ok _ =>
    let w1 := au.after w (.CallMethod rc.rc "MoveNext" [])
    match au.respond w1 (.GetProperty rc.rc "EOF") with
    | .error err => (some (.automation err), dest, au.after w1 (.GetProperty rc.rc "EOF"))
    | .ok unknown =>
      let w2 := au.after w1 (.GetProperty rc.rc "EOF")
      if unknown.Val ≠ 0 then (some (.errorString "EOF"), dest, w2)
      else
        match au.respond w2 (.GetProperty rc.rc "Fields") with
        | .error err => (some (.automation err), dest, au.after w2 (.GetProperty rc.rc "Fields"))
        | .ok unknown =>
          let fields := unknown.ToIDispatch
          nextLoop au fields dest.length 0 dest [fields] (au.after w2 (.GetProperty rc.rc "Fields"))

/-! ## Observing the calls a method issues -/

deriving instance DecidableEq for Except

/-- One step of the automation layer as seen from outside. -/
inductive Event
  | call (c : Call) (result : Except OleError VARIANT)
  | release (disp : Handle)
  deriving DecidableEq, Repr

/-- The automation layer `au` with a log of every call, in the order issued. -/
def traced {W : Type} (au : Automation W) : Automation (W × List Event) where
  respond := fun s c => au.respond s.1 c
  after := fun s c => (au.after s.1 c, s.2 ++ [Event.call c (au.respond s.1 c)])
  release := fun s h => (au.release s.1 h, s.2 ++ [Event.release h])
  ToString := au.ToString

/-- Whether the logged step reported success (`Release` reports nothing). -/
def Event.succeeded : Event → Bool
  | .call _ (.ok _) => true
  | .call _ (.error _) => false
  | .release _ => true

/-! ## A concrete automation layer: one command, one recordset -/

/-- A small ADO-like object graph.  Handle 1 is the command, 2 its parameter
collection (items `10 + i`), 3 the recordset, 4 its field collection (fields
`20 + i`).  The world state is the cursor position; `Execute` puts the cursor
on the first row and `MoveNext` moves it one row ahead. -/
structure Table where
  params : Nat
  names : List String
  types : List Int
  rows : List (List VARIANT)
  strings : Int → String

/-- The response of the object graph of `t` with the cursor at `pos`. -/
def Table.respond (t : Table) (pos : Nat) : Call → Except OleError VARIANT
  | .CallMethod 1 "Execute" [] => .ok ⟨9, 3⟩
  | .CallMethod 2 "Item" [⟨3, .ofNat i⟩] =>
    if i < t.params then .ok ⟨9, 10 + i⟩ else .error ⟨0x800A0CC1⟩
  | .PutProperty _ "Value" _ => .ok ⟨0, 0⟩
  | .CallMethod 3 "MoveNext" [] => if pos < t.rows.length then .ok ⟨0, 0⟩ else .error ⟨0x800A0BCD⟩
  | .GetProperty 3 "EOF" => .ok ⟨11, if pos < t.rows.length then 0 else -1⟩
  | .GetProperty 3 "Fields" => .ok ⟨9, 4⟩
  | .GetProperty 4 "Count" => .ok ⟨3, t.types.length⟩
  | .CallMethod 4 "Item" [⟨3, .ofNat i⟩] =>
    if i < t.types.length then .ok ⟨9, 20 + i⟩ else .error ⟨0x800A0CC1⟩
  | .GetProperty (.ofNat h) "Name" =>
    if 20 ≤ h ∧ h < 20 + t.names.length then .ok ⟨8, 1000 + (h - 20 : Nat)⟩ else .error ⟨0x80020003⟩
  | .GetProperty (.ofNat h) "Type" =>
    match t.types.get? (h - 20) with
    | some ty => if 20 ≤ h then .ok ⟨3, ty⟩ else .error ⟨0x80020003⟩
    | none => .error ⟨0x80020003⟩
  | .GetProperty (.ofNat h) "Value" =>
    match t.rows.get? pos with
    | some row =>
      match row.get? (h - 20) with
      | some v => if 20 ≤ h then .ok v else .error ⟨0x80020003⟩
      | none => .error ⟨0x80020003⟩
    | none => .error ⟨0x800A0BCD⟩
  | _ => .error ⟨0x80020003⟩

/-- The cursor position after a call. -/
def Table.after (_t : Table) (pos : Nat) : Call → Nat
  | .CallMethod 1 "Execute" [] => 0
  | .CallMethod 3 "MoveNext" [] => pos + 1
  | _ => pos

/-- String conversion in the object graph of `t`: column names live at
`1000 + i`, other strings are given by `t.strings`. -/
def Table.ToString (t : Table) (v : VARIANT) : String :=
  match v.Val with
  | .ofNat p => if 1000 ≤ p ∧ p < 1000 + t.names.length then t.names.getD (p - 1000) "" else t.strings v.Val
  | _ => t.strings v.Val

/-- The automation layer of a `Table`. -/
def Table.automation (t : Table) : Automation Nat where
  respond := t.respond
  after := t.after
  release := fun pos _ => pos
  ToString := t.ToString

/-- The statement prepared on the command of a `Table`. -/
def tableStmt : AdodbStmt := ⟨1, 2⟩

/-- The result of `SELECT id, name FROM t WHERE id = ?` with the single row
`(id, name)`: an integer column (tag 3) and a wide-string column (tag 202). -/
def oneRow (id : Int) (name : String) : Table where
  params := 1
  names := ["id", "name"]
  types := [3, 202]
  rows := [[⟨3, id⟩, ⟨8, 2000⟩]]
  strings := fun _ => name

/-- The row cursor `Query` creates on the recordset of a `Table`. -/
def tableRows : AdodbRows := ⟨tableStmt, 3, -1, []⟩

/-- A command with two parameters and no result columns. -/
def twoParams : Table where
  params := 2
  names := []
  types := []
  rows := []
  strings := fun _ => ""

/-- A two-row result with a smallint, an integer, a wide-string and a boolean
column. -/
def mixedRows : Table where
  params := 0
  names := ["a", "b", "c", "d"]
  types := [2, 3, 202, 11]
  rows := [[⟨2, 1⟩, ⟨3, 2⟩, ⟨8, 2000⟩, ⟨11, 0⟩],
           [⟨2, 70000⟩, ⟨3, 4294967301⟩, ⟨8, 2001⟩, ⟨11, -1⟩]]
  strings := fun p => if p = 2001 then "second" else "first"

/-- A two-row result with a double and a single column; the payloads are the
IEEE-754 bit patterns of 1.5 in the respective width. -/
def floatRows : Table where
  params := 0
  names := ["x", "y"]
  types := [5, 4]
  rows := [[⟨5, 0x3FF8000000000000⟩, ⟨4, 0x3FC00000⟩],
           [⟨5, 0x3FF8000000000000⟩, ⟨4, 0x3FC00000⟩]]
  strings := fun _ => ""

/-- A field collection that reports one field whose `Name` cannot be read. -/
def unnamedField : Table where
  params := 0
  names := []
  types := [3]
  rows := []
  strings := fun _ => ""

/-- A one-row result with the single integer column `a`. -/
def oneColumn : Table where
  params := 0
  names := ["a"]
  types := [3]
  rows := [[⟨3, 7⟩]]
  strings := fun _ => ""

/-- Four destination slots, the last one already holding a value. -/
def mixedDest : List GoValue := [.nil, .nil, .nil, .bool true]

/-- A platform with a 64-bit `int` on which `make` accepts up to `2 ^ 44`
strings. -/
def wideInt : Platform := ⟨64, 2 ^ 44⟩

/-- A platform with a 32-bit `int` on which `make` accepts up to `2 ^ 27`
strings. -/
def narrowInt : Platform := ⟨32, 2 ^ 27⟩

/-- A field collection that reports a `Count` of `2 ^ 62` fields. -/
def hugeCount : Automation Unit where
  respond := fun _ c =>
    match c with
    | .GetProperty 3 "Fields" => .ok ⟨9, 4⟩
    | .GetProperty 4 "Count" => .ok ⟨3, 2 ^ 62⟩
    | _ => .error ⟨0x80020003⟩
  after := fun _ _ => ()
  release := fun _ _ => ()
  ToString := fun _ => ""

/-! ## Shapes of call logs -/

/-- Log entries of a run of deferred releases. -/
def releaseEvents (hs : List Handle) : List Event := hs.map Event.release

/-- Log of the completed iterations of the `bind` loop, starting at index `i`:
per argument `v` the lookup answer `item` and the answer `r` of the put. -/
def bindEvents (ps : Handle) : Nat → List (GoValue × VARIANT × VARIANT) → List Event
  | _, [] => []
  | i, (v, item, r) :: rest =>
    .call (itemCall ps i) (.ok item) ::
      .call (.PutProperty item.ToIDispatch "Value" v) (.ok r) :: bindEvents ps (i + 1) rest

/-- Whether the logged step is an `Execute` method call. -/
def Event.isExecute : Event → Bool
  | .call (.CallMethod _ name _) _ => name == "Execute"
  | _ => false

/-- Log of the completed iterations of the `Next` loop, starting at index `i`:
per slot the lookup answer `field`, the answer of the `Type` read and the
answer of the `Value` read, then the explicit `field.Release()`. -/
def nextEvents (fields : Handle) : Nat → List (VARIANT × VARIANT × VARIANT) → List Event
  | _, [] => []
  | i, (field, typ, val) :: rest =>
    .call (itemCall fields i) (.ok field) ::
      .call (.GetProperty field.ToIDispatch "Type") (.ok typ) ::
      .call (.GetProperty field.ToIDispatch "Value") (.ok val) ::
      .release field.ToIDispatch :: nextEvents fields (i + 1) rest

/-- The destination slice after the completed iterations of the `Next` loop. -/
def storeAll (ToString : VARIANT → String) :
    Nat → List (VARIANT × VARIANT × VARIANT) → List GoValue → List GoValue
  | _, [], dest => dest
  | i, (_, typ, val) :: rest, dest =>
    storeAll ToString (i + 1) rest (storeField ToString typ.Val val i dest)

/-- In the log of a `Next` call on the recordset `rc`, slot `i` was served by
the `i`-th lookup on the field collection, whose `Type` read answered `typ` and
whose `Value` read answered `val`. -/
def SlotRead (rc : Handle) (log : List Event) (i : Nat) (typ val : VARIANT) : Prop :=
  ∃ fields field : VARIANT,
    log[2]? = some (.call (.GetProperty rc "Fields") (.ok fields)) ∧
    log[3 + 4 * i]?
      = some (.call (.CallMethod fields.ToIDispatch "Item" [⟨VT_I4, (i : Int)⟩]) (.ok field)) ∧
    log[3 + 4 * i + 1]? = some (.call (.GetProperty field.ToIDispatch "Type") (.ok typ)) ∧
    log[3 + 4 * i + 2]? = some (.call (.GetProperty field.ToIDispatch "Value") (.ok val))

/-- Type tags whose case in the switch of `Next` assigns to the slot. -/
def assigningTags : List Int :=
  [2, 3, 4, 5, 8, 129, 130, 131, 132, 133, 134, 135, 136, 200, 201, 202, 203]

/-- The character-string tags: BSTR, char, wchar, numeric, user-defined,
date, time, timestamp, varchar, long varchar, varwchar, long varwchar. -/
def stringTags : List Int :=
  [8, 129, 130, 131, 132, 133, 134, 135, 200, 201, 202, 203]

/-- Log of the completed iterations of the `Columns` loop, starting at index
`i`: per field the lookup answer `item` and the answer of the `Name` read, then
`item.Release()`. -/
def columnsEvents (fields : Handle) : Nat → List (VARIANT × VARIANT) → List Event
  | _, [] => []
  | i, (item, name) :: rest =>
    .call (itemCall fields i) (.ok item) ::
      .call (.GetProperty item.ToIDispatch "Name") (.ok name) ::
      .release item.ToIDispatch :: columnsEvents fields (i + 1) rest

/-- The slice `rc.cols` after the completed iterations of the `Columns` loop. -/
def setNames (ToString : VARIANT → String) :
    Nat → List (VARIANT × VARIANT) → List String → List String
  | _, [], cols => cols
  | i, (_, name) :: rest, cols => setNames ToString (i + 1) rest (cols.set i (ToString name))

/-! ## Lemmas on the traced automation layer -/

section Lemmas

variable {W : Type}

@[simp]
theorem traced_respond (au : Automation W) (st : W × List Event) (c : Call) :
    (traced au).respond st c = au.respond st.1 c := rfl

@[simp]
theorem traced_after (au : Automation W) (st : W × List Event) (c : Call) :
    (traced au).after st c = (au.after st.1 c, st.2 ++ [Event.call c (au.respond st.1 c)]) := rfl

@[simp]
theorem traced_release (au : Automation W) (st : W × List Event) (h : Handle) :
    (traced au).release st h = (au.release st.1 h, st.2 ++ [Event.release h]) := rfl

@[simp]
theorem traced_ToString (au : Automation W) : (traced au).ToString = au.ToString := rfl

theorem runDeferred_traced (au : Automation W) (d : List Handle) (w : W) (l : List Event) :
    runDeferred (traced au) d (w, l) = (runDeferred au d w, l ++ releaseEvents d) := by
  induction d generalizing w l with
  | nil => simp [runDeferred, releaseEvents]
  | cons h t ih => simp [runDeferred, ih, releaseEvents]

theorem releaseEvents_all_release (hs : List Handle) :
    ∀ ev ∈ releaseEvents hs, ∃ h, ev = Event.release h := by
  intro ev hev
  simp only [releaseEvents, List.mem_map] at hev
  obtain ⟨h, _, rfl⟩ := hev
  exact ⟨h, rfl⟩

theorem releaseEvents_succeeded (hs : List Handle) :
    (releaseEvents hs).all Event.succeeded = true := by
  simp [releaseEvents, Event.succeeded]

theorem bindEvents_length (ps : Handle) (done : List (GoValue × VARIANT × VARIANT)) (i : Nat) :
    (bindEvents ps i done).length = 2 * done.length := by
  induction done generalizing i with
  | nil => simp [bindEvents]
  | cons x t ih => obtain ⟨v, item, r⟩ := x; simp [bindEvents, ih]; omega

theorem bindEvents_get (ps : Handle) (done : List (GoValue × VARIANT × VARIANT)) (i k : Nat)
    (v : GoValue) (item r : VARIANT) (h : done[k]? = some (v, item, r)) :
    (bindEvents ps i done)[2 * k]? = some (.call (itemCall ps (i + k)) (.ok item)) ∧
    (bindEvents ps i done)[2 * k + 1]? =
      some (.call (.PutProperty item.ToIDispatch "Value" v) (.ok r)) := by
  induction done generalizing i k with
  | nil => simp at h
  | cons x t ih =>
    obtain ⟨v0, item0, r0⟩ := x
    cases k with
    | zero =>
      simp at h
      obtain ⟨rfl, rfl, rfl⟩ := h
      simp [bindEvents]
    | succ k =>
      simp at h
      have := ih (i + 1) k h
      have e1 : 2 * (k + 1) = (2 * k + 1) + 1 := by omega
      have e3 : i + 1 + k = i + (k + 1) := by omega
      rw [e1]
      simp only [bindEvents, List.getElem?_cons_succ]
      rw [← e3]
      exact this

theorem bindEvents_not_execute (ps : Handle) (done : List (GoValue × VARIANT × VARIANT)) (i : Nat) :
    ∀ ev ∈ bindEvents ps i done, ev.isExecute = false := by
  induction done generalizing i with
  | nil => simp [bindEvents]
  | cons x t ih =>
    obtain ⟨v, item, r⟩ := x
    intro ev hev
    simp only [bindEvents, List.mem_cons] at hev
    rcases hev with rfl | rfl | hev
    · simp [Event.isExecute, itemCall]
    · rfl
    · exact ih _ ev hev

/-- Every run of the `bind` loop has one of three shapes: all arguments bound;
a lookup failed at some position; a put failed at some position.  In each case
the log is the completed iterations, the failing calls, and the releases. -/
theorem bindLoop_traced (au : Automation W) (ps : Handle) :
    ∀ (args : List GoValue) (i : Nat) (d : List Handle) (w : W) (l : List Event),
    ∃ (done : List (GoValue × VARIANT × VARIANT)) (tail : List Event) (rel : List Handle),
      (bindLoop (traced au) ps i args d (w, l)).2.2
        = l ++ (bindEvents ps i done ++ (tail ++ releaseEvents rel)) ∧
      (∀ k v, k < done.length → args[k]? = some v → ∃ item r, done[k]? = some (v, item, r)) ∧
      (((bindLoop (traced au) ps i args d (w, l)).1 = none ∧ done.length = args.length ∧ tail = [])
       ∨ ∃ e, (bindLoop (traced au) ps i args d (w, l)).1 = some (.automation e) ∧
           done.length < args.length ∧
           (tail = [.call (itemCall ps (i + done.length)) (.error e)] ∨
            ∃ item v, args[done.length]? = some v ∧
              tail = [.call (itemCall ps (i + done.length)) (.ok item),
                      .call (.PutProperty item.ToIDispatch "Value" v) (.error e)])) := by
  intro args
  induction args with
  | nil =>
    intro i d w l
    refine ⟨[], [], d, ?_, ?_, Or.inl ⟨?_, rfl, rfl⟩⟩
    · simp [bindLoop, runDeferred_traced, bindEvents]
    · intro k v hk; simp at hk
    · simp [bindLoop]
  | cons v rest ih =>
    intro i d w l
    cases h1 : au.respond w (itemCall ps i) with
    | error e =>
      refine ⟨[], [.call (itemCall ps i) (.error e)], d, ?_, ?_, Or.inr ⟨e, ?_, ?_, Or.inl ?_⟩⟩
      · simp [bindLoop, h1, runDeferred_traced, bindEvents]
      · intro k v hk; simp at hk
      · simp [bindLoop, h1]
      · simp
      · simp
    | ok item =>
      cases h2 : au.respond (au.after w (itemCall ps i)) (.PutProperty item.ToIDispatch "Value" v) with
      | error e =>
        refine ⟨[], [.call (itemCall ps i) (.ok item),
          .call (.PutProperty item.ToIDispatch "Value" v) (.error e)], item.ToIDispatch :: d,
          ?_, ?_, Or.inr ⟨e, ?_, ?_, Or.inr ⟨item, v, ?_, ?_⟩⟩⟩
        · simp [bindLoop, h1, h2, runDeferred_traced, bindEvents]
        · intro k v hk; simp at hk
        · simp [bindLoop, h1, h2]
        · simp
        · simp
        · simp
      | ok r =>
        obtain ⟨done, tail, rel, hlog, hdone, hres⟩ := ih (i + 1) (item.ToIDispatch :: d)
          (au.after (au.after w (itemCall ps i)) (.PutProperty item.ToIDispatch "Value" v))
          ((l ++ [Event.call (itemCall ps i) (.ok item)]) ++
            [Event.call (.PutProperty item.ToIDispatch "Value" v) (.ok r)])
        have hstep : bindLoop (traced au) ps i (v :: rest) d (w, l)
            = bindLoop (traced au) ps (i + 1) rest (item.ToIDispatch :: d)
              (au.after (au.after w (itemCall ps i)) (.PutProperty item.ToIDispatch "Value" v),
               (l ++ [Event.call (itemCall ps i) (.ok item)]) ++
                [Event.call (.PutProperty item.ToIDispatch "Value" v) (.ok r)]) := by
          simp [bindLoop, h1, h2]
        rw [hstep]
        have e3 : i + 1 + done.length = i + (done.length + 1) := by omega
        refine ⟨(v, item, r) :: done, tail, rel, ?_, ?_, ?_⟩
        · rw [hlog]; simp [bindEvents]
        · intro k v' hk hv'
          cases k with
          | zero => simp at hv'; subst hv'; exact ⟨item, r, by simp⟩
          | succ k =>
            simp at hv' hk
            obtain ⟨item', r', h'⟩ := hdone k v' hk hv'
            exact ⟨item', r', by simpa using h'⟩
        · rcases hres with ⟨hn, hl, ht⟩ | ⟨e, he, hl, ht⟩
          · exact Or.inl ⟨hn, by simp [hl], ht⟩
          · refine Or.inr ⟨e, he, by simp; omega, ?_⟩
            rcases ht with ht | ⟨item', v', hv', ht⟩
            · left; rw [ht]; simp only [List.length_cons]; rw [e3]
            · right; refine ⟨item', v', by simpa using hv', ?_⟩
              rw [ht]; simp only [List.length_cons]; rw [e3]

theorem nextEvents_length (fields : Handle) (rs : List (VARIANT × VARIANT × VARIANT)) (i : Nat) :
    (nextEvents fields i rs).length = 4 * rs.length := by
  induction rs generalizing i with
  | nil => simp [nextEvents]
  | cons x t ih => obtain ⟨f, typ, val⟩ := x; simp [nextEvents, ih]; omega

theorem nextEvents_get (fields : Handle) (rs : List (VARIANT × VARIANT × VARIANT)) (i m : Nat)
    (field typ val : VARIANT) (h : rs[m]? = some (field, typ, val)) :
    (nextEvents fields i rs)[4 * m]? = some (.call (itemCall fields (i + m)) (.ok field)) ∧
    (nextEvents fields i rs)[4 * m + 1]?
      = some (.call (.GetProperty field.ToIDispatch "Type") (.ok typ)) ∧
    (nextEvents fields i rs)[4 * m + 2]?
      = some (.call (.GetProperty field.ToIDispatch "Value") (.ok val)) := by
  induction rs generalizing i m with
  | nil => simp at h
  | cons x t ih =>
    obtain ⟨f0, typ0, val0⟩ := x
    cases m with
    | zero =>
      simp at h
      obtain ⟨rfl, rfl, rfl⟩ := h
      simp [nextEvents]
    | succ m =>
      simp at h
      have := ih (i + 1) m h
      have e1 : 4 * (m + 1) = (4 * m + 1 + 1 + 1) + 1 := by omega
      have e3 : i + 1 + m = i + (m + 1) := by omega
      rw [e1]
      simp only [nextEvents, List.getElem?_cons_succ]
      rw [← e3]
      exact this

theorem storeField_length (T : VARIANT → String) (typ : Int) (val : VARIANT) (i : Nat)
    (dest : List GoValue) : (storeField T typ val i dest).length = dest.length := by
  unfold storeField
  cases decodeField T typ val <;> simp

theorem storeField_get_ne (T : VARIANT → String) (typ : Int) (val : VARIANT) (i j : Nat)
    (dest : List GoValue) (h : i ≠ j) : (storeField T typ val i dest)[j]? = dest[j]? := by
  unfold storeField
  cases decodeField T typ val with
  | none => rfl
  | some v => simp [List.getElem?_set_ne h]

theorem storeField_get_eq (T : VARIANT → String) (typ : Int) (val : VARIANT) (i : Nat)
    (dest : List GoValue) (old : GoValue) (h : dest[i]? = some old) :
    (storeField T typ val i dest)[i]? = some ((decodeField T typ val).getD old) := by
  have hi : i < dest.length := by
    by_contra hc
    rw [List.getElem?_eq_none (by omega)] at h; cases h
  unfold storeField
  cases decodeField T typ val with
  | none => simpa using h
  | some v => simp [List.getElem?_set_self, hi]

theorem storeAll_get_lt (T : VARIANT → String) (rs : List (VARIANT × VARIANT × VARIANT))
    (i j : Nat) (dest : List GoValue) (h : j < i) : (storeAll T i rs dest)[j]? = dest[j]? := by
  induction rs generalizing i dest with
  | nil => rfl
  | cons x t ih =>
    obtain ⟨f, typ, val⟩ := x
    simp only [storeAll]
    rw [ih (i + 1) _ (by omega), storeField_get_ne T typ.Val val i j dest (by omega)]

theorem storeAll_get (T : VARIANT → String) (rs : List (VARIANT × VARIANT × VARIANT))
    (i m : Nat) (dest : List GoValue) (field typ val : VARIANT) (old : GoValue)
    (h : rs[m]? = some (field, typ, val)) (hold : dest[i + m]? = some old) :
    (storeAll T i rs dest)[i + m]? = some ((decodeField T typ.Val val).getD old) := by
  induction rs generalizing i m dest with
  | nil => simp at h
  | cons x t ih =>
    obtain ⟨f0, typ0, val0⟩ := x
    cases m with
    | zero =>
      simp at h
      obtain ⟨rfl, rfl, rfl⟩ := h
      simp only [storeAll, Nat.add_zero] at hold ⊢
      rw [storeAll_get_lt T t (i + 1) i _ (by omega)]
      exact storeField_get_eq T _ _ i dest old hold
    | succ m =>
      simp at h
      have e3 : i + (m + 1) = i + 1 + m := by omega
      simp only [storeAll]
      rw [e3] at hold ⊢
      apply ih (i + 1) m _ h
      rw [storeField_get_ne T _ _ i (i + 1 + m) dest (by omega)]
      exact hold

theorem storeAll_length (T : VARIANT → String) (rs : List (VARIANT × VARIANT × VARIANT))
    (i : Nat) (dest : List GoValue) : (storeAll T i rs dest).length = dest.length := by
  induction rs generalizing i dest with
  | nil => rfl
  | cons x t ih =>
    obtain ⟨f, typ, val⟩ := x
    simp only [storeAll]
    rw [ih, storeField_length]

/-- Every run of the `Next` loop either completes all `k` iterations, logging
four steps per slot and then the releases, or logs a failed call. -/
theorem nextLoop_traced (au : Automation W) (fields : Handle) :
    ∀ (k i : Nat) (dest : List GoValue) (d : List Handle) (w : W) (l : List Event),
    (∃ (rs : List (VARIANT × VARIANT × VARIANT)) (rel : List Handle),
      rs.length = k ∧
      (nextLoop (traced au) fields k i dest d (w, l)).1 = none ∧
      (nextLoop (traced au) fields k i dest d (w, l)).2.1 = storeAll au.ToString i rs dest ∧
      (nextLoop (traced au) fields k i dest d (w, l)).2.2.2
        = l ++ (nextEvents fields i rs ++ releaseEvents rel))
    ∨ (∃ new, (nextLoop (traced au) fields k i dest d (w, l)).2.2.2 = l ++ new ∧
        new.all Event.succeeded = false) := by
  intro k
  induction k with
  | zero =>
    intro i dest d w l
    left
    exact ⟨[], d, rfl, by simp [nextLoop], by simp [nextLoop, storeAll],
      by simp [nextLoop, runDeferred_traced, nextEvents]⟩
  | succ k ih =>
    intro i dest d w l
    cases h1 : au.respond w (itemCall fields i) with
    | error e =>
      right
      refine ⟨.call (itemCall fields i) (.error e) :: releaseEvents d, ?_, ?_⟩
      · simp [nextLoop, h1, runDeferred_traced]
      · simp [Event.succeeded]
    | ok field =>
      cases h2 : au.respond (au.after w (itemCall fields i))
          (.GetProperty field.ToIDispatch "Type") with
      | error e =>
        right
        refine ⟨.call (itemCall fields i) (.ok field) ::
          .call (.GetProperty field.ToIDispatch "Type") (.error e) ::
          releaseEvents (field.ToIDispatch :: d), ?_, ?_⟩
        · simp [nextLoop, h1, h2, runDeferred_traced]
        · simp [Event.succeeded]
      | ok typ =>
        cases h3 : au.respond
            (au.after (au.after w (itemCall fields i)) (.GetProperty field.ToIDispatch "Type"))
            (.GetProperty field.ToIDispatch "Value") with
        | error e =>
          right
          refine ⟨.call (itemCall fields i) (.ok field) ::
            .call (.GetProperty field.ToIDispatch "Type") (.ok typ) ::
            .call (.GetProperty field.ToIDispatch "Value") (.error e) ::
            releaseEvents (field.ToIDispatch :: d), ?_, ?_⟩
          · simp [nextLoop, h1, h2, h3, runDeferred_traced]
          · simp [Event.succeeded]
        | ok val =>
          have hstep : nextLoop (traced au) fields (k + 1) i dest d (w, l)
              = nextLoop (traced au) fields k (i + 1) (storeField au.ToString typ.Val val i dest)
                (field.ToIDispatch :: d)
                (au.release (au.after (au.after (au.after w (itemCall fields i))
                    (.GetProperty field.ToIDispatch "Type"))
                    (.GetProperty field.ToIDispatch "Value")) field.ToIDispatch,
                 l ++ [.call (itemCall fields i) (.ok field),
                   .call (.GetProperty field.ToIDispatch "Type") (.ok typ),
                   .call (.GetProperty field.ToIDispatch "Value") (.ok val),
                   .release field.ToIDispatch]) := by
            simp [nextLoop, h1, h2, h3]
          rw [hstep]
          rcases ih (i + 1) (storeField au.ToString typ.Val val i dest) (field.ToIDispatch :: d)
            (au.release (au.after (au.after (au.after w (itemCall fields i))
                    (.GetProperty field.ToIDispatch "Type"))
                    (.GetProperty field.ToIDispatch "Value")) field.ToIDispatch)
            (l ++ [.call (itemCall fields i) (.ok field),
                   .call (.GetProperty field.ToIDispatch "Type") (.ok typ),
                   .call (.GetProperty field.ToIDispatch "Value") (.ok val),
                   .release field.ToIDispatch])
            with ⟨rs, rel, hlen, hn, hd, hlog⟩ | ⟨new, hlog, hbad⟩
          · left
            refine ⟨(field, typ, val) :: rs, rel, by simp [hlen], hn, ?_, ?_⟩
            · rw [hd]; rfl
            · rw [hlog]; simp [nextEvents]
          · right
            refine ⟨[.call (itemCall fields i) (.ok field),
                   .call (.GetProperty field.ToIDispatch "Type") (.ok typ),
                   .call (.GetProperty field.ToIDispatch "Value") (.ok val),
                   .release field.ToIDispatch] ++ new, ?_, ?_⟩
            · rw [hlog]; simp
            · rw [List.all_append, hbad]; simp

/-- A `Next` call whose logged calls all succeeded and whose end-of-data flag
was clear returns nil after `MoveNext`, the `EOF` read, the `Fields` read and
one completed loop iteration per destination slot. -/
theorem Next_traced_success (au : Automation W) (rc : AdodbRows) (dest : List GoValue) (w : W)
    (hall : (rc.Next (traced au) dest (w, [])).2.2.2.all Event.succeeded = true)
    (heof : ∃ v, (rc.Next (traced au) dest (w, [])).2.2.2[1]?
        = some (.call (.GetProperty rc.rc "EOF") (.ok v)) ∧ v.Val = 0) :
    ∃ (mv eofv fields : VARIANT) (rs : List (VARIANT × VARIANT × VARIANT)) (rel : List Handle),
      rs.length = dest.length ∧
      (rc.Next (traced au) dest (w, [])).1 = none ∧
      (rc.Next (traced au) dest (w, [])).2.1 = storeAll au.ToString 0 rs dest ∧
      (rc.Next (traced au) dest (w, [])).2.2.2
        = [.call (.CallMethod rc.rc "MoveNext" []) (.ok mv),
           .call (.GetProperty rc.rc "EOF") (.ok eofv),
           .call (.GetProperty rc.rc "Fields") (.ok fields)]
          ++ (nextEvents fields.ToIDispatch 0 rs ++ releaseEvents rel) := by
  cases h1 : au.respond w (.CallMethod rc.rc "MoveNext" []) with
  | error e => simp [AdodbRows.Next, h1, Event.succeeded] at hall
  | ok mv =>
    cases h2 : au.respond (au.after w (.CallMethod rc.rc "MoveNext" []))
        (.GetProperty rc.rc "EOF") with
    | error e => simp [AdodbRows.Next, h1, h2, Event.succeeded] at hall
    | ok eofv =>
      by_cases hz : eofv.Val = 0
      · cases h3 : au.respond (au.after (au.after w (.CallMethod rc.rc "MoveNext" []))
            (.GetProperty rc.rc "EOF")) (.GetProperty rc.rc "Fields") with
        | error e => simp [AdodbRows.Next, h1, h2, h3, hz, Event.succeeded] at hall
        | ok fields =>
          have hstep : rc.Next (traced au) dest (w, [])
              = nextLoop (traced au) fields.ToIDispatch dest.length 0 dest [fields.ToIDispatch]
                (au.after (au.after (au.after w (.CallMethod rc.rc "MoveNext" []))
                  (.GetProperty rc.rc "EOF")) (.GetProperty rc.rc "Fields"),
                 [.call (.CallMethod rc.rc "MoveNext" []) (.ok mv),
                  .call (.GetProperty rc.rc "EOF") (.ok eofv),
                  .call (.GetProperty rc.rc "Fields") (.ok fields)]) := by
            simp [AdodbRows.Next, h1, h2, h3, hz]
          rw [hstep] at hall ⊢
          rcases nextLoop_traced au fields.ToIDispatch dest.length 0 dest [fields.ToIDispatch]
            (au.after (au.after (au.after w (.CallMethod rc.rc "MoveNext" []))
                  (.GetProperty rc.rc "EOF")) (.GetProperty rc.rc "Fields"))
            [.call (.CallMethod rc.rc "MoveNext" []) (.ok mv),
                  .call (.GetProperty rc.rc "EOF") (.ok eofv),
                  .call (.GetProperty rc.rc "Fields") (.ok fields)]
            with ⟨rs, rel, hlen, hn, hd, hlog⟩ | ⟨new, hlog, hbad⟩
          · exact ⟨mv, eofv, fields, rs, rel, hlen, hn, hd, hlog⟩
          · rw [hlog, List.all_append, hbad] at hall
            simp at hall
      · exfalso
        obtain ⟨v, hv, hv0⟩ := heof
        simp [AdodbRows.Next, h1, h2, hz] at hv
        exact hz (hv ▸ hv0)

/-- After a successful `Next`, every slot holds the decoding of the type and
value read for it, or its old content when the switch assigns nothing. -/
theorem Next_slots (au : Automation W) (rc : AdodbRows) (dest : List GoValue) (w : W)
    (hall : (rc.Next (traced au) dest (w, [])).2.2.2.all Event.succeeded = true)
    (heof : ∃ v, (rc.Next (traced au) dest (w, [])).2.2.2[1]?
        = some (.call (.GetProperty rc.rc "EOF") (.ok v)) ∧ v.Val = 0) :
    (rc.Next (traced au) dest (w, [])).1 = none ∧
    ∀ i old, dest[i]? = some old → ∃ typ val,
      SlotRead rc.rc (rc.Next (traced au) dest (w, [])).2.2.2 i typ val ∧
      (rc.Next (traced au) dest (w, [])).2.1[i]?
        = some ((decodeField au.ToString typ.Val val).getD old) := by
  obtain ⟨mv, eofv, fields, rs, rel, hlen, hn, hd, hlog⟩ :=
    Next_traced_success au rc dest w hall heof
  refine ⟨hn, ?_⟩
  intro i old hi
  have hilt : i < rs.length := by
    rw [hlen]
    by_contra hc
    rw [List.getElem?_eq_none (by omega)] at hi; cases hi
  obtain ⟨⟨field, typ, val⟩, hr⟩ : ∃ x, rs[i]? = some x :=
    ⟨rs[i], List.getElem?_eq_getElem hilt⟩
  have hg := nextEvents_get fields.ToIDispatch rs 0 i field typ val hr
  have hl4 := nextEvents_length fields.ToIDispatch rs 0
  refine ⟨typ, val, ⟨fields, field, ?_, ?_, ?_, ?_⟩, ?_⟩
  · rw [hlog]; simp
  · rw [hlog, List.getElem?_append_right (by simp)]
    simp only [List.length_cons, List.length_nil]
    rw [show 3 + 4 * i - (0 + 1 + 1 + 1) = 4 * i by omega,
      List.getElem?_append_left (by omega)]
    simpa [itemCall] using hg.1
  · rw [hlog, List.getElem?_append_right (by simp; omega)]
    simp only [List.length_cons, List.length_nil]
    rw [show 3 + 4 * i + 1 - (0 + 1 + 1 + 1) = 4 * i + 1 by omega,
      List.getElem?_append_left (by omega)]
    exact hg.2.1
  · rw [hlog, List.getElem?_append_right (by simp; omega)]
    simp only [List.length_cons, List.length_nil]
    rw [show 3 + 4 * i + 2 - (0 + 1 + 1 + 1) = 4 * i + 2 by omega,
      List.getElem?_append_left (by omega)]
    exact hg.2.2
  · rw [hd]
    have := storeAll_get au.ToString rs 0 i dest field typ val old hr (by simpa using hi)
    simpa using this

theorem wrapSigned_16 (x : Int) :
    -2 ^ 15 ≤ wrapSigned 16 x ∧ wrapSigned 16 x < 2 ^ 15 ∧
    wrapSigned 16 x % 2 ^ 16 = x % 2 ^ 16 ∧
    (-2 ^ 15 ≤ x ∧ x < 2 ^ 15 → wrapSigned 16 x = x) := by
  simp only [wrapSigned]
  norm_num
  omega

theorem wrapSigned_32 (x : Int) :
    -2 ^ 31 ≤ wrapSigned 32 x ∧ wrapSigned 32 x < 2 ^ 31 ∧
    wrapSigned 32 x % 2 ^ 32 = x % 2 ^ 32 ∧
    (-2 ^ 31 ≤ x ∧ x < 2 ^ 31 → wrapSigned 32 x = x) := by
  simp only [wrapSigned]
  norm_num
  omega

theorem decodeField_string (T : VARIANT → String) (typ : Int) (val : VARIANT)
    (h : typ ∈ stringTags) : decodeField T typ val = some (.string (T val)) := by
  simp only [stringTags, List.mem_cons, List.mem_singleton, List.not_mem_nil, or_false] at h
  rcases h with h | h | h | h | h | h | h | h | h | h | h | h <;> subst h <;> rfl

theorem decodeField_unassigned (T : VARIANT → String) (typ : Int) (val : VARIANT)
    (h : typ ∉ assigningTags) : decodeField T typ val = none := by
  simp only [assigningTags, List.mem_cons, List.mem_singleton, List.not_mem_nil, or_false,
    not_or] at h
  unfold decodeField
  split <;> first | rfl | (exfalso; omega)

theorem columnsEvents_length (fields : Handle) (rs : List (VARIANT × VARIANT)) (i : Nat) :
    (columnsEvents fields i rs).length = 3 * rs.length := by
  induction rs generalizing i with
  | nil => simp [columnsEvents]
  | cons x t ih => obtain ⟨item, name⟩ := x; simp [columnsEvents, ih]; omega

theorem columnsEvents_get (fields : Handle) (rs : List (VARIANT × VARIANT)) (i m : Nat)
    (item name : VARIANT) (h : rs[m]? = some (item, name)) :
    (columnsEvents fields i rs)[3 * m]? = some (.call (itemCall fields (i + m)) (.ok item)) ∧
    (columnsEvents fields i rs)[3 * m + 1]?
      = some (.call (.GetProperty item.ToIDispatch "Name") (.ok name)) := by
  induction rs generalizing i m with
  | nil => simp at h
  | cons x t ih =>
    obtain ⟨item0, name0⟩ := x
    cases m with
    | zero =>
      simp at h
      obtain ⟨rfl, rfl⟩ := h
      simp [columnsEvents]
    | succ m =>
      simp at h
      have := ih (i + 1) m h
      have e1 : 3 * (m + 1) = (3 * m + 1 + 1) + 1 := by omega
      have e3 : i + 1 + m = i + (m + 1) := by omega
      rw [e1]
      simp only [columnsEvents, List.getElem?_cons_succ]
      rw [← e3]
      exact this

theorem setNames_length (T : VARIANT → String) (rs : List (VARIANT × VARIANT)) (i : Nat)
    (cols : List String) : (setNames T i rs cols).length = cols.length := by
  induction rs generalizing i cols with
  | nil => rfl
  | cons x t ih => obtain ⟨item, name⟩ := x; simp only [setNames]; rw [ih]; simp

theorem setNames_get_lt (T : VARIANT → String) (rs : List (VARIANT × VARIANT)) (i j : Nat)
    (cols : List String) (h : j < i) : (setNames T i rs cols)[j]? = cols[j]? := by
  induction rs generalizing i cols with
  | nil => rfl
  | cons x t ih =>
    obtain ⟨item, name⟩ := x
    simp only [setNames]
    rw [ih (i + 1) _ (by omega), List.getElem?_set_ne (by omega)]

theorem setNames_get (T : VARIANT → String) (rs : List (VARIANT × VARIANT)) (i m : Nat)
    (cols : List String) (item name : VARIANT) (h : rs[m]? = some (item, name))
    (hlt : i + m < cols.length) : (setNames T i rs cols)[i + m]? = some (T name) := by
  induction rs generalizing i m cols with
  | nil => simp at h
  | cons x t ih =>
    obtain ⟨item0, name0⟩ := x
    cases m with
    | zero =>
      simp at h
      obtain ⟨rfl, rfl⟩ := h
      simp only [setNames, Nat.add_zero] at hlt ⊢
      rw [setNames_get_lt T t (i + 1) i _ (by omega)]
      simp [List.getElem?_set_self, hlt]
    | succ m =>
      simp at h
      have e3 : i + (m + 1) = i + 1 + m := by omega
      simp only [setNames]
      rw [e3] at hlt ⊢
      exact ih (i + 1) m _ h (by simpa using hlt)

/-- Every run of the `Columns` loop either completes all `k` iterations,
logging three steps per field, or logs a failed call. -/
theorem columnsLoop_traced (au : Automation W) (fields : Handle) :
    ∀ (k i : Nat) (cols : List String) (w : W) (l : List Event),
    (∃ (rs : List (VARIANT × VARIANT)),
      rs.length = k ∧
      (columnsLoop (traced au) fields k i cols (w, l)).1 = true ∧
      (columnsLoop (traced au) fields k i cols (w, l)).2.1 = setNames au.ToString i rs cols ∧
      (columnsLoop (traced au) fields k i cols (w, l)).2.2.2 = l ++ columnsEvents fields i rs)
    ∨ (∃ new, (columnsLoop (traced au) fields k i cols (w, l)).2.2.2 = l ++ new ∧
        new.all Event.succeeded = false) := by
  intro k
  induction k with
  | zero =>
    intro i cols w l
    left
    exact ⟨[], rfl, by simp [columnsLoop], by simp [columnsLoop, setNames],
      by simp [columnsLoop, columnsEvents]⟩
  | succ k ih =>
    intro i cols w l
    cases h1 : au.respond w (itemCall fields i) with
    | error e =>
      right
      refine ⟨[.call (itemCall fields i) (.error e)], ?_, ?_⟩
      · simp [columnsLoop, h1]
      · simp [Event.succeeded]
    | ok item =>
      cases h2 : au.respond (au.after w (itemCall fields i))
          (.GetProperty item.ToIDispatch "Name") with
      | error e =>
        right
        refine ⟨[.call (itemCall fields i) (.ok item),
          .call (.GetProperty item.ToIDispatch "Name") (.error e)], ?_, ?_⟩
        · simp [columnsLoop, h1, h2]
        · simp [Event.succeeded]
      | ok name =>
        have hstep : columnsLoop (traced au) fields (k + 1) i cols (w, l)
            = columnsLoop (traced au) fields k (i + 1) (cols.set i (au.ToString name))
              (au.release (au.after (au.after w (itemCall fields i))
                  (.GetProperty item.ToIDispatch "Name")) item.ToIDispatch,
               l ++ [.call (itemCall fields i) (.ok item),
                 .call (.GetProperty item.ToIDispatch "Name") (.ok name),
                 .release item.ToIDispatch]) := by
          simp [columnsLoop, h1, h2]
        rw [hstep]
        rcases ih (i + 1) (cols.set i (au.ToString name))
          (au.release (au.after (au.after w (itemCall fields i))
                  (.GetProperty item.ToIDispatch "Name")) item.ToIDispatch)
          (l ++ [.call (itemCall fields i) (.ok item),
                 .call (.GetProperty item.ToIDispatch "Name") (.ok name),
                 .release item.ToIDispatch])
          with ⟨rs, hlen, hn, hd, hlog⟩ | ⟨new, hlog, hbad⟩
        · left
          refine ⟨(item, name) :: rs, by simp [hlen], hn, ?_, ?_⟩
          · rw [hd]; rfl
          · rw [hlog]; simp [columnsEvents]
        · right
          refine ⟨[.call (itemCall fields i) (.ok item),
                 .call (.GetProperty item.ToIDispatch "Name") (.ok name),
                 .release item.ToIDispatch] ++ new, ?_, ?_⟩
          · rw [hlog]; simp
          · rw [List.all_append, hbad]; simp

theorem wrapSigned_eq_self (bits : Nat) (x : Int) (hb : 1 ≤ bits)
    (h1 : -2 ^ (bits - 1) ≤ x) (h2 : x < 2 ^ (bits - 1)) : wrapSigned bits x = x := by
  have hp : (2 : Int) ^ bits = 2 * 2 ^ (bits - 1) := by
    rw [← pow_succ']
    congr 1
    omega
  unfold wrapSigned
  rw [hp]
  generalize (2 : Int) ^ (bits - 1) = h at h1 h2 ⊢
  rw [Int.emod_eq_of_lt (by omega) (by omega)]
  omega

theorem bindEvents_succeeded (ps : Handle) (done : List (GoValue × VARIANT × VARIANT)) (i : Nat) :
    (bindEvents ps i done).all Event.succeeded = true := by
  induction done generalizing i with
  | nil => simp [bindEvents]
  | cons x t ih =>
    obtain ⟨v, item, r⟩ := x
    simp only [bindEvents, List.all_cons, ih, Event.succeeded, Bool.and_self]

end Lemmas

/-! ## The binder -/

section Binder

variable {W : Type}

/-- C7 (amended): whenever every automation call that `bind` issues succeeds,
`bind` returns nil; for each argument position `k` (counted from 0) the log
holds at place `2 * k` one `Item` lookup on the parameter collection whose
index is the `VT_I4` variant carrying `k` itself, so the first argument is
looked up with index 0 and the last with index `n - 1`, and at place
`2 * k + 1` the put of that item's `Value` property to the argument; after
these `2 * n` calls only deferred releases follow. -/
theorem bind_lookups_zero_indexed (au : Automation W) (s : AdodbStmt) (args : List GoValue) (w : W)
    (hall : (s.bind (traced au) args (w, [])).2.2.all Event.succeeded = true) :
    (s.bind (traced au) args (w, [])).1 = none ∧
    (∀ k v, args[k]? = some v → ∃ item r,
      (s.bind (traced au) args (w, [])).2.2[2 * k]?
        = some (.call (.CallMethod s.ps "Item" [⟨VT_I4, (k : Int)⟩]) (.ok item)) ∧
      (s.bind (traced au) args (w, [])).2.2[2 * k + 1]?
        = some (.call (.PutProperty item.ToIDispatch "Value" v) (.ok r))) ∧
    (∀ ev ∈ (s.bind (traced au) args (w, [])).2.2.drop (2 * args.length),
      ∃ h, ev = Event.release h) := by
  obtain ⟨done, tail, rel, hlog, hdone, hres⟩ := bindLoop_traced au s.ps args 0 [] w []
  simp only [AdodbStmt.bind] at hall ⊢
  rw [hlog] at hall ⊢
  rcases hres with ⟨hn, hl, ht⟩ | ⟨e, _, _, ht⟩
  · subst ht
    refine ⟨hn, ?_, ?_⟩
    · intro k v hk
      have hklt : k < done.length := by
        rw [hl]
        by_contra hc
        have : args[k]? = none := List.getElem?_eq_none (by omega)
        rw [this] at hk; cases hk
      obtain ⟨item, r, hd⟩ := hdone k v hklt hk
      have hg := bindEvents_get s.ps done 0 k v item r hd
      have hlen := bindEvents_length s.ps done 0
      refine ⟨item, r, ?_, ?_⟩
      · simp only [List.nil_append, List.append_nil]
        rw [List.getElem?_append_left (by omega)]
        simpa [itemCall] using hg.1
      · simp only [List.nil_append, List.append_nil]
        rw [List.getElem?_append_left (by omega)]
        exact hg.2
    · intro ev hev
      have hlen := bindEvents_length s.ps done 0
      simp only [List.nil_append] at hev
      rw [← hl, ← hlen, List.drop_left] at hev
      exact releaseEvents_all_release rel ev (by simpa using hev)
  · exfalso
    rcases ht with ht | ⟨item, v, _, ht⟩ <;> subst ht <;>
      simp [Event.succeeded] at hall

/-- C8: when some automation call issued by `bind` fails (equivalently, when
`bind` returns an error), `bind` returns the error `e` of the first failing
call, at some argument position `k`; the log is the `2 * k` calls of the
positions before `k` (each a successful lookup and a successful put of the
argument), then the failing lookup, or the lookup and the failing put, of
position `k`, then only releases: no lookup or put for a later position and no
call undoing an earlier put.  `Query` and `Exec` return that error in the state
`bind` left, and no `Execute` call is in their logs. -/
theorem bind_fails_fast (au : Automation W) (s : AdodbStmt) (args : List GoValue) (w : W)
    (hfail : (s.bind (traced au) args (w, [])).2.2.all Event.succeeded = false ∨
      (s.bind (traced au) args (w, [])).1 ≠ none) :
    ∃ (k : Nat) (e : OleError) (tail : List Event) (rel : List Handle),
      k < args.length ∧
      (s.bind (traced au) args (w, [])).1 = some (.automation e) ∧
      (s.bind (traced au) args (w, [])).2.2.all Event.succeeded = false ∧
      (s.bind (traced au) args (w, [])).2.2
        = (s.bind (traced au) args (w, [])).2.2.take (2 * k) ++ (tail ++ releaseEvents rel) ∧
      ((s.bind (traced au) args (w, [])).2.2.take (2 * k)).all Event.succeeded = true ∧
      (∀ j v, j < k → args[j]? = some v → ∃ item r,
        (s.bind (traced au) args (w, [])).2.2[2 * j]?
          = some (.call (.CallMethod s.ps "Item" [⟨VT_I4, (j : Int)⟩]) (.ok item)) ∧
        (s.bind (traced au) args (w, [])).2.2[2 * j + 1]?
          = some (.call (.PutProperty item.ToIDispatch "Value" v) (.ok r))) ∧
      (tail = [.call (.CallMethod s.ps "Item" [⟨VT_I4, (k : Int)⟩]) (.error e)] ∨
        ∃ item v, args[k]? = some v ∧
          tail = [.call (.CallMethod s.ps "Item" [⟨VT_I4, (k : Int)⟩]) (.ok item),
                  .call (.PutProperty item.ToIDispatch "Value" v) (.error e)]) ∧
      s.Query (traced au) args (w, [])
        = (.error (.automation e), (s.bind (traced au) args (w, [])).2) ∧
      s.Exec (traced au) args (w, [])
        = (.error (.automation e), (s.bind (traced au) args (w, [])).2) ∧
      (∀ ev ∈ (s.Query (traced au) args (w, [])).2.2, ev.isExecute = false) ∧
      (∀ ev ∈ (s.Exec (traced au) args (w, [])).2.2, ev.isExecute = false) := by
  have hQ : ∀ err, (s.bind (traced au) args (w, [])).1 = some err →
      s.Query (traced au) args (w, []) = (.error err, (s.bind (traced au) args (w, [])).2) := by
    intro err herr
    rcases hb : s.bind (traced au) args (w, []) with ⟨o, st⟩
    rw [hb] at herr
    simp only at herr
    subst herr
    simp [AdodbStmt.Query, hb]
  have hE : ∀ err, (s.bind (traced au) args (w, [])).1 = some err →
      s.Exec (traced au) args (w, []) = (.error err, (s.bind (traced au) args (w, [])).2) := by
    intro err herr
    rcases hb : s.bind (traced au) args (w, []) with ⟨o, st⟩
    rw [hb] at herr
    simp only at herr
    subst herr
    simp [AdodbStmt.Exec, hb]
  obtain ⟨done, tail, rel, hlog, hdone, hres⟩ := bindLoop_traced au s.ps args 0 [] w []
  have hlen := bindEvents_length s.ps done 0
  have hok := bindEvents_succeeded s.ps done 0
  rcases hres with ⟨hn, _, ht⟩ | ⟨e, he, hl, ht⟩
  · exfalso
    subst ht
    rcases hfail with hf | hf
    · simp only [AdodbStmt.bind] at hf
      rw [hlog] at hf
      simp [hok, releaseEvents_succeeded] at hf
    · exact hf hn
  · have he' : (s.bind (traced au) args (w, [])).1 = some (.automation e) := he
    rw [hQ _ he', hE _ he']
    simp only [AdodbStmt.bind] at hfail ⊢
    have htake : (bindLoop (traced au) s.ps 0 args [] (w, [])).2.2.take (2 * done.length)
        = bindEvents s.ps 0 done := by
      rw [hlog, List.nil_append, ← hlen, List.take_left]
    have htail : tail.all Event.succeeded = false := by
      rcases ht with ht | ⟨item, v, _, ht⟩ <;> subst ht <;> simp [Event.succeeded]
    refine ⟨done.length, e, tail, rel, hl, he, ?_, ?_, ?_, ?_, ?_, rfl, rfl, ?_, ?_⟩
    · rw [hlog]
      simp [List.all_append, htail]
    · rw [htake]; simpa using hlog
    · rw [htake]; exact hok
    · intro j v hj hv
      obtain ⟨item, r, hd⟩ := hdone j v hj hv
      have hg := bindEvents_get s.ps done 0 j v item r hd
      refine ⟨item, r, ?_, ?_⟩
      · rw [hlog, List.nil_append, List.getElem?_append_left (by omega)]
        simpa [itemCall] using hg.1
      · rw [hlog, List.nil_append, List.getElem?_append_left (by omega)]
        exact hg.2
    · simpa [itemCall] using ht
    all_goals
      intro ev hev
      rw [hlog] at hev
      simp only [List.nil_append, List.mem_append] at hev
      rcases hev with hev | hev | hev
      · exact bindEvents_not_execute s.ps done 0 ev hev
      · rcases ht with ht | ⟨item, v, _, ht⟩ <;> subst ht <;>
          simp at hev <;> rcases hev with rfl | rfl <;> simp [Event.isExecute, itemCall]
      · obtain ⟨h, rfl⟩ := releaseEvents_all_release rel ev hev
        rfl

end Binder

/-! ## The row cursor: `Next` -/

section Cursor

variable {W : Type}

/-- C3: in a `Next` call whose automation calls all succeed and whose `EOF`
flag is clear, a slot whose field has type tag 2 ends up holding an
`int16` that lies in the signed 16-bit range and is congruent to the raw
payload modulo `2 ^ 16`, and equals the payload when the payload is in that
range; likewise tag 3 with `int32` and `2 ^ 32`. -/
theorem Next_decodes_signed_integers (au : Automation W) (rc : AdodbRows) (dest : List GoValue)
    (w : W)
    (hall : (rc.Next (traced au) dest (w, [])).2.2.2.all Event.succeeded = true)
    (heof : ∃ v, (rc.Next (traced au) dest (w, [])).2.2.2[1]?
        = some (.call (.GetProperty rc.rc "EOF") (.ok v)) ∧ v.Val = 0)
    (i : Nat) (old : GoValue) (hi : dest[i]? = some old) :
    ∃ typ val, SlotRead rc.rc (rc.Next (traced au) dest (w, [])).2.2.2 i typ val ∧
      (typ.Val = 2 → ∃ x : Int,
        (rc.Next (traced au) dest (w, [])).2.1[i]? = some (.int16 x) ∧
        -2 ^ 15 ≤ x ∧ x < 2 ^ 15 ∧ x % 2 ^ 16 = val.Val % 2 ^ 16 ∧
        (-2 ^ 15 ≤ val.Val ∧ val.Val < 2 ^ 15 → x = val.Val)) ∧
      (typ.Val = 3 → ∃ x : Int,
        (rc.Next (traced au) dest (w, [])).2.1[i]? = some (.int32 x) ∧
        -2 ^ 31 ≤ x ∧ x < 2 ^ 31 ∧ x % 2 ^ 32 = val.Val % 2 ^ 32 ∧
        (-2 ^ 31 ≤ val.Val ∧ val.Val < 2 ^ 31 → x = val.Val)) := by
  obtain ⟨typ, val, hread, hslot⟩ := (Next_slots au rc dest w hall heof).2 i old hi
  refine ⟨typ, val, hread, ?_, ?_⟩
  · intro ht
    refine ⟨wrapSigned 16 val.Val, ?_, wrapSigned_16 val.Val⟩
    rw [hslot, ht]; rfl
  · intro ht
    refine ⟨wrapSigned 32 val.Val, ?_, wrapSigned_32 val.Val⟩
    rw [hslot, ht]; rfl

/-- C4: in a `Next` call whose automation calls all succeed and whose `EOF`
flag is clear, a slot whose field has one of the character-string
type tags (8, 129, 130, 131, 132, 133, 134, 135, 200, 201, 202, 203) ends up
holding the string `ToString` gives for the field's `Value` variant. -/
theorem Next_decodes_strings (au : Automation W) (rc : AdodbRows) (dest : List GoValue) (w : W)
    (hall : (rc.Next (traced au) dest (w, [])).2.2.2.all Event.succeeded = true)
    (heof : ∃ v, (rc.Next (traced au) dest (w, [])).2.2.2[1]?
        = some (.call (.GetProperty rc.rc "EOF") (.ok v)) ∧ v.Val = 0)
    (i : Nat) (old : GoValue) (hi : dest[i]? = some old) :
    ∃ typ val, SlotRead rc.rc (rc.Next (traced au) dest (w, [])).2.2.2 i typ val ∧
      (typ.Val ∈ stringTags →
        (rc.Next (traced au) dest (w, [])).2.1[i]? = some (.string (au.ToString val))) := by
  obtain ⟨typ, val, hread, hslot⟩ := (Next_slots au rc dest w hall heof).2 i old hi
  refine ⟨typ, val, hread, ?_⟩
  intro ht
  rw [hslot, decodeField_string au.ToString typ.Val val ht]; rfl

/-- C5: a `Next` call whose automation calls all succeed and whose end-of-data
flag is clear returns nil; every slot ends up holding what the switch assigns
for the type and value read for it, or its old content when the switch assigns
nothing; and the switch assigns nothing for every type tag outside
2, 3, 4, 5, 8, 129-136, 200-203, so such a slot keeps its pre-call value. -/
theorem Next_leaves_unsupported_slots (au : Automation W) (rc : AdodbRows) (dest : List GoValue)
    (w : W)
    (hall : (rc.Next (traced au) dest (w, [])).2.2.2.all Event.succeeded = true)
    (heof : ∃ v, (rc.Next (traced au) dest (w, [])).2.2.2[1]?
        = some (.call (.GetProperty rc.rc "EOF") (.ok v)) ∧ v.Val = 0) :
    (rc.Next (traced au) dest (w, [])).1 = none ∧
    ∀ i old, dest[i]? = some old →
      ∃ typ val, SlotRead rc.rc (rc.Next (traced au) dest (w, [])).2.2.2 i typ val ∧
        (rc.Next (traced au) dest (w, [])).2.1[i]?
          = some ((decodeField au.ToString typ.Val val).getD old) ∧
        (typ.Val ∉ assigningTags →
          (rc.Next (traced au) dest (w, [])).2.1[i]? = dest[i]?) := by
  obtain ⟨hn, hslots⟩ := Next_slots au rc dest w hall heof
  refine ⟨hn, ?_⟩
  intro i old hi
  obtain ⟨typ, val, hread, hslot⟩ := hslots i old hi
  refine ⟨typ, val, hread, hslot, ?_⟩
  intro ht
  rw [hslot, hi, decodeField_unassigned au.ToString typ.Val val ht]; rfl

/-- C6: when `MoveNext` and the `EOF` read succeed and the flag read is
non-zero, `Next` returns the error value `errors.New("EOF")`, which differs
from every error handed back by an automation call; the destination slice is
unchanged and the log holds exactly the `MoveNext` call followed by the `EOF`
read, so no `Fields`, `Item`, `Type` or `Value` call is issued.  In every call
of `Next` the first step issued is `MoveNext`. -/
theorem Next_end_of_data (au : Automation W) (rc : AdodbRows) (dest : List GoValue) (w : W)
    (mv eofv : VARIANT)
    (hmove : au.respond w (.CallMethod rc.rc "MoveNext" []) = .ok mv)
    (hread : au.respond (au.after w (.CallMethod rc.rc "MoveNext" []))
      (.GetProperty rc.rc "EOF") = .ok eofv)
    (hset : eofv.Val ≠ 0) :
    rc.Next (traced au) dest (w, [])
      = (some (.errorString "EOF"), dest,
          (au.after (au.after w (.CallMethod rc.rc "MoveNext" [])) (.GetProperty rc.rc "EOF"),
           [.call (.CallMethod rc.rc "MoveNext" []) (.ok mv),
            .call (.GetProperty rc.rc "EOF") (.ok eofv)])) ∧
    (∀ e : OleError, GoError.errorString "EOF" ≠ GoError.automation e) ∧
    (∀ (dest1 : List GoValue) (w1 : W), ∃ r,
      (rc.Next (traced au) dest1 (w1, [])).2.2.2[0]?
        = some (.call (.CallMethod rc.rc "MoveNext" []) r)) := by
  refine ⟨by simp [AdodbRows.Next, hmove, hread, hset], (fun e h => by cases h), ?_⟩
  intro dest1 w1
  refine ⟨au.respond w1 (.CallMethod rc.rc "MoveNext" []), ?_⟩
  cases h1 : au.respond w1 (.CallMethod rc.rc "MoveNext" []) with
  | error e => simp [AdodbRows.Next, h1]
  | ok mv1 =>
    cases h2 : au.respond (au.after w1 (.CallMethod rc.rc "MoveNext" []))
        (.GetProperty rc.rc "EOF") with
    | error e => simp [AdodbRows.Next, h1, h2]
    | ok eofv1 =>
      by_cases hz : eofv1.Val = 0
      · cases h3 : au.respond (au.after (au.after w1 (.CallMethod rc.rc "MoveNext" []))
            (.GetProperty rc.rc "EOF")) (.GetProperty rc.rc "Fields") with
        | error e => simp [AdodbRows.Next, h1, h2, h3, hz]
        | ok fields =>
          rcases nextLoop_traced au fields.ToIDispatch dest1.length 0 dest1 [fields.ToIDispatch]
            (au.after (au.after (au.after w1 (.CallMethod rc.rc "MoveNext" []))
                  (.GetProperty rc.rc "EOF")) (.GetProperty rc.rc "Fields"))
            [.call (.CallMethod rc.rc "MoveNext" []) (.ok mv1),
                  .call (.GetProperty rc.rc "EOF") (.ok eofv1),
                  .call (.GetProperty rc.rc "Fields") (.ok fields)]
            with ⟨rs, rel, _, _, _, hlog⟩ | ⟨new, hlog, _⟩ <;>
          · simp only [AdodbRows.Next, traced_respond, traced_after, h1, h2, h3, hz,
              ne_eq, not_true_eq_false, if_false, List.nil_append, List.cons_append]
            simp only [List.cons_append, List.nil_append] at hlog
            rw [hlog]
            simp
      · simp [AdodbRows.Next, h1, h2, hz]

end Cursor

/-! ## The row cursor: `Columns` -/

section Metadata

variable {W : Type}

/-- C10 (amended): `Columns` decides on the cached count and the length of the
cached list alone.  When they agree, the cached list is returned, the receiver
is unchanged and no automation call is issued, whatever the live `Count` is.
When they differ (as on a fresh cursor) and every call issued succeeds, the
log starts with the `Fields` read and the `Count` read.  The count used is the
live `Count` converted to `int`, which is the live `Count` itself when that
fits in `int`.  If the converted count is negative or beyond the length `make`
accepts, no list is returned.  Otherwise the returned list has that length,
its entry `i` is `ToString` of the `Name` read on the item looked up with index
`i` (places `2 + 3 * i` and `2 + 3 * i + 1` of the log), and count and list are
cached in the receiver. -/
theorem Columns_reads_when_count_differs_from_cache (pf : Platform) (au : Automation W)
    (rc : AdodbRows) (w : W) :
    (rc.nc = (rc.cols.length : Int) →
      rc.Columns pf (traced au) (w, []) = (some rc.cols, rc, (w, []))) ∧
    (rc.nc ≠ (rc.cols.length : Int) →
      (rc.Columns pf (traced au) (w, [])).2.2.2.all Event.succeeded = true →
      ∃ fields cnt : VARIANT,
        (rc.Columns pf (traced au) (w, [])).2.2.2[0]?
          = some (.call (.GetProperty rc.rc "Fields") (.ok fields)) ∧
        (rc.Columns pf (traced au) (w, [])).2.2.2[1]?
          = some (.call (.GetProperty fields.ToIDispatch "Count") (.ok cnt)) ∧
        (1 ≤ pf.intBits → -2 ^ (pf.intBits - 1) ≤ cnt.Val → cnt.Val < 2 ^ (pf.intBits - 1) →
          wrapSigned pf.intBits cnt.Val = cnt.Val) ∧
        (wrapSigned pf.intBits cnt.Val < 0 ∨ (pf.maxLen : Int) < wrapSigned pf.intBits cnt.Val →
          (rc.Columns pf (traced au) (w, [])).1 = none) ∧
        (0 ≤ wrapSigned pf.intBits cnt.Val →
          wrapSigned pf.intBits cnt.Val ≤ (pf.maxLen : Int) → ∃ names : List String,
          (rc.Columns pf (traced au) (w, [])).1 = some names ∧
          (rc.Columns pf (traced au) (w, [])).2.1
            = { rc with nc := wrapSigned pf.intBits cnt.Val, cols := names } ∧
          (names.length : Int) = wrapSigned pf.intBits cnt.Val ∧
          ∀ i, i < names.length → ∃ item name : VARIANT,
            (rc.Columns pf (traced au) (w, [])).2.2.2[2 + 3 * i]?
              = some (.call (.CallMethod fields.ToIDispatch "Item" [⟨VT_I4, (i : Int)⟩])
                  (.ok item)) ∧
            (rc.Columns pf (traced au) (w, [])).2.2.2[2 + 3 * i + 1]?
              = some (.call (.GetProperty item.ToIDispatch "Name") (.ok name)) ∧
            names[i]? = some (au.ToString name))) := by
  constructor
  · intro h
    simp [AdodbRows.Columns, h]
  · intro hne hall
    cases h1 : au.respond w (.GetProperty rc.rc "Fields") with
    | error e => simp [AdodbRows.Columns, hne, h1, Event.succeeded] at hall
    | ok fields =>
      cases h2 : au.respond (au.after w (.GetProperty rc.rc "Fields"))
          (.GetProperty fields.ToIDispatch "Count") with
      | error e => simp [AdodbRows.Columns, hne, h1, h2, Event.succeeded] at hall
      | ok cnt =>
        have hwrap : 1 ≤ pf.intBits → -2 ^ (pf.intBits - 1) ≤ cnt.Val →
            cnt.Val < 2 ^ (pf.intBits - 1) → wrapSigned pf.intBits cnt.Val = cnt.Val :=
          fun hb ha hc => wrapSigned_eq_self pf.intBits cnt.Val hb ha hc
        by_cases hbad : wrapSigned pf.intBits cnt.Val < 0 ∨ (pf.maxLen : Int) < wrapSigned pf.intBits cnt.Val
        · have hC : rc.Columns pf (traced au) (w, [])
              = (none, { rc with nc := wrapSigned pf.intBits cnt.Val },
                  (au.release (au.after (au.after w (.GetProperty rc.rc "Fields"))
                      (.GetProperty fields.ToIDispatch "Count")) fields.ToIDispatch,
                   [.call (.GetProperty rc.rc "Fields") (.ok fields),
                    .call (.GetProperty fields.ToIDispatch "Count") (.ok cnt),
                    .release fields.ToIDispatch])) := by
            simp [AdodbRows.Columns, hne, h1, h2, hbad]
          rw [hC]
          exact ⟨fields, cnt, by simp, by simp, hwrap, fun _ => rfl,
            fun h0 h1 => absurd hbad (by omega)⟩
        · rcases hc : columnsLoop (traced au) fields.ToIDispatch (wrapSigned pf.intBits cnt.Val).toNat 0
              (List.replicate (wrapSigned pf.intBits cnt.Val).toNat "")
              (au.after (au.after w (.GetProperty rc.rc "Fields"))
                (.GetProperty fields.ToIDispatch "Count"),
               [.call (.GetProperty rc.rc "Fields") (.ok fields),
                .call (.GetProperty fields.ToIDispatch "Count") (.ok cnt)])
            with ⟨b, cols, w3, l3⟩
          have hC : rc.Columns pf (traced au) (w, [])
              = (some (if b then cols else []), { rc with nc := wrapSigned pf.intBits cnt.Val, cols := cols },
                  (au.release w3 fields.ToIDispatch, l3 ++ [.release fields.ToIDispatch])) := by
            cases b <;> simp [AdodbRows.Columns, hne, h1, h2, hbad, hc]
          have key := columnsLoop_traced au fields.ToIDispatch (wrapSigned pf.intBits cnt.Val).toNat 0
            (List.replicate (wrapSigned pf.intBits cnt.Val).toNat "")
            (au.after (au.after w (.GetProperty rc.rc "Fields"))
              (.GetProperty fields.ToIDispatch "Count"))
            [.call (.GetProperty rc.rc "Fields") (.ok fields),
             .call (.GetProperty fields.ToIDispatch "Count") (.ok cnt)]
          rw [hc] at key
          rw [hC] at hall ⊢
          rcases key with ⟨rs, hlen, hb, hcols, hl3⟩ | ⟨new, hl3, hfailed⟩
          · simp only at hb hcols hl3
            subst hb
            have hclen : cols.length = (wrapSigned pf.intBits cnt.Val).toNat := by
              rw [hcols, setNames_length]; simp
            have hl3len := columnsEvents_length fields.ToIDispatch rs 0
            refine ⟨fields, cnt, by simp [hl3], by simp [hl3], hwrap,
              fun h => absurd h hbad, ?_⟩
            intro h0 _
            refine ⟨cols, by simp, rfl, by rw [hclen]; omega, ?_⟩
            intro i hi
            have hilt : i < rs.length := by omega
            obtain ⟨⟨item, name⟩, hr⟩ : ∃ x, rs[i]? = some x :=
              ⟨rs[i], List.getElem?_eq_getElem hilt⟩
            have hg := columnsEvents_get fields.ToIDispatch rs 0 i item name hr
            have hn := setNames_get au.ToString rs 0 i
              (List.replicate (wrapSigned pf.intBits cnt.Val).toNat "") item name hr (by simp; omega)
            refine ⟨item, name, ?_, ?_, ?_⟩
            · simp only [hl3, List.append_assoc]
              rw [List.getElem?_append_right (by simp)]
              simp only [List.length_cons, List.length_nil]
              rw [show 2 + 3 * i - (0 + 1 + 1) = 3 * i by omega,
                List.getElem?_append_left (by omega)]
              simpa [itemCall] using hg.1
            · simp only [hl3, List.append_assoc]
              rw [List.getElem?_append_right (by simp; omega)]
              simp only [List.length_cons, List.length_nil]
              rw [show 2 + 3 * i + 1 - (0 + 1 + 1) = 3 * i + 1 by omega,
                List.getElem?_append_left (by omega)]
              exact hg.2
            · rw [hcols]; simpa using hn
          · exfalso
            simp only at hl3
            rw [hl3] at hall
            simp only [List.all_append, hfailed, Bool.and_false, Bool.false_and] at hall
            simp at hall

end Metadata

/-! ## Evaluations on the concrete object graph -/

/-- C1: on a one-row result `(id, name)` with an integer and a string column,
`Query` leaves the cursor on the row (the `EOF` flag is clear and the field
values are readable), yet the first `Next` into two slots issues `MoveNext`
first, finds the end-of-data flag set, returns `errors.New("EOF")` and leaves
both slots as they were. -/
theorem first_Next_skips_the_only_row (id : Int) (name : String) (arg d0 d1 : GoValue) :
    tableStmt.Query (oneRow id name).automation [arg] 0 = (.ok tableRows, 0) ∧
    (oneRow id name).automation.respond 0 (.GetProperty 3 "EOF") = .ok ⟨11, 0⟩ ∧
    (oneRow id name).automation.respond 0 (.GetProperty 20 "Value") = .ok ⟨3, id⟩ ∧
    (oneRow id name).automation.respond 0 (.GetProperty 21 "Value") = .ok ⟨8, 2000⟩ ∧
    (oneRow id name).automation.ToString ⟨8, 2000⟩ = name ∧
    tableRows.Next (oneRow id name).automation [d0, d1] 0
      = (some (.errorString "EOF"), [d0, d1], 1) :=
  ⟨rfl, rfl, rfl, rfl, rfl, rfl⟩

/-- C2: `Next` on a row with a double column (payload: the bits of 1.5) and a
single column (payload: the bits of 1.5f) succeeds and leaves in the first slot
the raw payload as an `int64`, and in the second slot the float32 nearest to
the integer 1069547520 (bits `0x4E7F0000`), not the float with bits
`0x3FC00000`. -/
theorem Next_float_columns_keep_raw_payload :
    tableRows.Next floatRows.automation [.nil, .nil] 0
      = (none, [.int64 0x3FF8000000000000, .float32 0x4E7F0000], 1) := by
  decide

/-- C7 (counterexample): binding the one-element argument list `[42]` succeeds
and the single lookup carries index 0; no lookup with index 1 is issued. -/
theorem bind_single_argument_uses_index_zero :
    tableStmt.bind (traced (oneRow 42 "alice").automation) [.int 42] (0, [])
      = (none, (0, [.call (.CallMethod 2 "Item" [⟨VT_I4, 0⟩]) (.ok ⟨9, 10⟩),
                    .call (.PutProperty 10 "Value" (.int 42)) (.ok ⟨0, 0⟩),
                    .release 10])) ∧
    ¬ ∃ r, Event.call (.CallMethod 2 "Item" [⟨VT_I4, 1⟩]) r
        ∈ (tableStmt.bind (traced (oneRow 42 "alice").automation) [.int 42] (0, [])).2.2 := by
  have h : tableStmt.bind (traced (oneRow 42 "alice").automation) [.int 42] (0, [])
      = (none, (0, [.call (.CallMethod 2 "Item" [⟨VT_I4, 0⟩]) (.ok ⟨9, 10⟩),
                    .call (.PutProperty 10 "Value" (.int 42)) (.ok ⟨0, 0⟩),
                    .release 10])) := by decide
  refine ⟨h, ?_⟩
  rintro ⟨r, hr⟩
  rw [h] at hr
  simp [VT_I4] at hr

/-- C9: with a field collection that reports one field whose `Name` read
fails, the first `Columns` on a fresh cursor returns the empty list but caches
count 1 and the one-element list of the empty string; the second `Columns`
returns that cached list, which differs from the first answer; so it is with
a 64-bit and with a 32-bit `int`. -/
theorem Columns_twice_after_failed_name_read :
    (tableRows.Columns wideInt unnamedField.automation 0
        = (some [], ⟨tableStmt, 3, 1, [""]⟩, 0) ∧
      (tableRows.Columns wideInt unnamedField.automation 0).2.1.Columns wideInt
          unnamedField.automation (tableRows.Columns wideInt unnamedField.automation 0).2.2
        = (some [""], ⟨tableStmt, 3, 1, [""]⟩, 0)) ∧
    (tableRows.Columns narrowInt unnamedField.automation 0
        = (some [], ⟨tableStmt, 3, 1, [""]⟩, 0) ∧
      (tableRows.Columns narrowInt unnamedField.automation 0).2.1.Columns narrowInt
          unnamedField.automation (tableRows.Columns narrowInt unnamedField.automation 0).2.2
        = (some [""], ⟨tableStmt, 3, 1, [""]⟩, 0)) := by
  decide

/-- C10 (counterexample): a cursor that resolved its columns on a one-column
field collection keeps answering `["a"]` without issuing any call when the live
field collection reports `Count` 2. -/
theorem Columns_keeps_cache_when_live_count_differs :
    (tableRows.Columns wideInt oneColumn.automation 0).2.1 = ⟨tableStmt, 3, 1, ["a"]⟩ ∧
    (oneRow 42 "alice").automation.respond 0 (.GetProperty 4 "Count") = .ok ⟨3, 2⟩ ∧
    (tableRows.Columns wideInt oneColumn.automation 0).2.1.Columns wideInt
        (traced (oneRow 42 "alice").automation) (0, [])
      = (some ["a"], ⟨tableStmt, 3, 1, ["a"]⟩, (0, [])) := by
  decide

/-! ## Instances of the general theorems on the concrete object graph -/

/-- Instance of `bind_lookups_zero_indexed`: two arguments bound on a command with
two parameters; the second argument is looked up with index 1. -/
theorem bind_lookups_zero_indexed_witness :
    (tableStmt.bind (traced twoParams.automation) [.int 42, .string "x"] (0, [])).2.2.all
        Event.succeeded = true ∧
    (tableStmt.bind (traced twoParams.automation) [.int 42, .string "x"] (0, [])).1 = none ∧
    ∃ item r,
      (tableStmt.bind (traced twoParams.automation) [.int 42, .string "x"] (0, [])).2.2[2 * 1]?
        = some (.call (.CallMethod tableStmt.ps "Item" [⟨VT_I4, ((1 : Nat) : Int)⟩]) (.ok item)) ∧
      (tableStmt.bind (traced twoParams.automation) [.int 42, .string "x"] (0, [])).2.2[2 * 1 + 1]?
        = some (.call (.PutProperty item.ToIDispatch "Value" (.string "x")) (.ok r)) :=
  ⟨by decide,
   (bind_lookups_zero_indexed twoParams.automation tableStmt [.int 42, .string "x"] 0
      (by decide)).1,
   (bind_lookups_zero_indexed twoParams.automation tableStmt [.int 42, .string "x"] 0
      (by decide)).2.1 1 (.string "x") (by decide)⟩

/-- Instance of `bind_fails_fast`: three arguments on a command with two
parameters; the third lookup fails, `bind` returns its error and `Query`
returns it without an `Execute`. -/
theorem bind_fails_fast_witness :
    (tableStmt.bind (traced twoParams.automation) [.int 1, .int 2, .int 3] (0, [])).2.2.all
        Event.succeeded = false ∧
    (tableStmt.bind (traced twoParams.automation) [.int 1, .int 2, .int 3] (0, [])).1
      = some (.automation ⟨0x800A0CC1⟩) ∧
    ∃ e : OleError,
      (tableStmt.bind (traced twoParams.automation) [.int 1, .int 2, .int 3] (0, [])).1
        = some (.automation e) ∧
      tableStmt.Query (traced twoParams.automation) [.int 1, .int 2, .int 3] (0, [])
        = (.error (.automation e),
            (tableStmt.bind (traced twoParams.automation) [.int 1, .int 2, .int 3] (0, [])).2) ∧
      ∀ ev ∈ (tableStmt.Query (traced twoParams.automation) [.int 1, .int 2, .int 3]
          (0, [])).2.2, ev.isExecute = false := by
  refine ⟨by decide, by decide, ?_⟩
  obtain ⟨_, e, _, _, _, he, _, _, _, _, _, hq, _, hx, _⟩ :=
    bind_fails_fast twoParams.automation tableStmt [.int 1, .int 2, .int 3] 0
      (Or.inl (by decide))
  exact ⟨e, he, hq, hx⟩

/-- Instance of `Next_decodes_signed_integers`: slot 0 of the second row of
`mixedRows`, a smallint column. -/
theorem Next_decodes_signed_integers_witness :
    (tableRows.Next (traced mixedRows.automation) mixedDest (0, [])).2.2.2.all
        Event.succeeded = true ∧
    (tableRows.Next (traced mixedRows.automation) mixedDest (0, [])).2.2.2[1]?
        = some (.call (.GetProperty tableRows.rc "EOF") (.ok ⟨11, 0⟩)) ∧
    mixedDest[0]? = some .nil ∧
    ∃ typ val,
      SlotRead tableRows.rc (tableRows.Next (traced mixedRows.automation) mixedDest (0, [])).2.2.2
        0 typ val ∧
      (typ.Val = 2 → ∃ x : Int,
        (tableRows.Next (traced mixedRows.automation) mixedDest (0, [])).2.1[0]?
          = some (.int16 x) ∧
        -2 ^ 15 ≤ x ∧ x < 2 ^ 15 ∧ x % 2 ^ 16 = val.Val % 2 ^ 16 ∧
        (-2 ^ 15 ≤ val.Val ∧ val.Val < 2 ^ 15 → x = val.Val)) ∧
      (typ.Val = 3 → ∃ x : Int,
        (tableRows.Next (traced mixedRows.automation) mixedDest (0, [])).2.1[0]?
          = some (.int32 x) ∧
        -2 ^ 31 ≤ x ∧ x < 2 ^ 31 ∧ x % 2 ^ 32 = val.Val % 2 ^ 32 ∧
        (-2 ^ 31 ≤ val.Val ∧ val.Val < 2 ^ 31 → x = val.Val)) :=
  ⟨by decide, by decide, by decide,
   Next_decodes_signed_integers mixedRows.automation tableRows mixedDest 0 (by decide)
     ⟨⟨11, 0⟩, by decide, rfl⟩ 0 .nil (by decide)⟩

/-- Instance of `Next_decodes_strings`: slot 2 of the second row of `mixedRows`,
a wide-string column. -/
theorem Next_decodes_strings_witness :
    (tableRows.Next (traced mixedRows.automation) mixedDest (0, [])).2.2.2.all
        Event.succeeded = true ∧
    (tableRows.Next (traced mixedRows.automation) mixedDest (0, [])).2.2.2[1]?
        = some (.call (.GetProperty tableRows.rc "EOF") (.ok ⟨11, 0⟩)) ∧
    mixedDest[2]? = some .nil ∧
    ∃ typ val,
      SlotRead tableRows.rc (tableRows.Next (traced mixedRows.automation) mixedDest (0, [])).2.2.2
        2 typ val ∧
      (typ.Val ∈ stringTags →
        (tableRows.Next (traced mixedRows.automation) mixedDest (0, [])).2.1[2]?
          = some (.string (mixedRows.automation.ToString val))) :=
  ⟨by decide, by decide, by decide,
   Next_decodes_strings mixedRows.automation tableRows mixedDest 0 (by decide)
     ⟨⟨11, 0⟩, by decide, rfl⟩ 2 .nil (by decide)⟩

/-- Instance of `Next_leaves_unsupported_slots`: the second row of `mixedRows`;
the boolean column leaves the fourth slot as it was. -/
theorem Next_leaves_unsupported_slots_witness :
    (tableRows.Next (traced mixedRows.automation) mixedDest (0, [])).2.2.2.all
        Event.succeeded = true ∧
    (tableRows.Next (traced mixedRows.automation) mixedDest (0, [])).2.2.2[1]?
        = some (.call (.GetProperty tableRows.rc "EOF") (.ok ⟨11, 0⟩)) ∧
    (tableRows.Next (traced mixedRows.automation) mixedDest (0, [])).2.1
        = [.int16 4464, .int32 5, .string "second", .bool true] ∧
    (tableRows.Next (traced mixedRows.automation) mixedDest (0, [])).1 = none :=
  ⟨by decide, by decide, by decide,
   (Next_leaves_unsupported_slots mixedRows.automation tableRows mixedDest 0 (by decide)
     ⟨⟨11, 0⟩, by decide, rfl⟩).1⟩

/-- Instance of `Next_end_of_data`: `Next` on the one-row result, whose cursor
`MoveNext` moves past the row. -/
theorem Next_end_of_data_witness :
    (oneRow 42 "alice").automation.respond 0 (.CallMethod tableRows.rc "MoveNext" [])
      = .ok ⟨0, 0⟩ ∧
    (oneRow 42 "alice").automation.respond 1 (.GetProperty tableRows.rc "EOF") = .ok ⟨11, -1⟩ ∧
    tableRows.Next (traced (oneRow 42 "alice").automation) [.nil, .nil] (0, [])
      = (some (.errorString "EOF"), [.nil, .nil],
          (1, [.call (.CallMethod tableRows.rc "MoveNext" []) (.ok ⟨0, 0⟩),
               .call (.GetProperty tableRows.rc "EOF") (.ok ⟨11, -1⟩)])) :=
  ⟨by decide, by decide,
   (Next_end_of_data (oneRow 42 "alice").automation tableRows [.nil, .nil] 0 ⟨0, 0⟩ ⟨11, -1⟩
     (by decide) (by decide) (by decide)).1⟩

/-- Instance of `Columns_reads_when_count_differs_from_cache`: a cursor with a
consistent cache on a one-column result; a fresh cursor on a two-column
result; and a fresh cursor on a field collection reporting `2 ^ 62` fields,
for which no list is returned. -/
theorem Columns_reads_when_count_differs_from_cache_witness :
    ((⟨tableStmt, 3, 2, ["id", "name"]⟩ : AdodbRows).Columns wideInt
        (traced oneColumn.automation) (0, [])
      = (some ["id", "name"], ⟨tableStmt, 3, 2, ["id", "name"]⟩, (0, []))) ∧
    tableRows.nc ≠ (tableRows.cols.length : Int) ∧
    (tableRows.Columns wideInt (traced (oneRow 42 "alice").automation) (0, [])).2.2.2.all
        Event.succeeded = true ∧
    (tableRows.Columns wideInt (traced (oneRow 42 "alice").automation) (0, [])).1
        = some ["id", "name"] ∧
    (tableRows.Columns wideInt (traced hugeCount) ((), [])).2.2.2.all
        Event.succeeded = true ∧
    (tableRows.Columns wideInt (traced hugeCount) ((), [])).1 = none ∧
    ∃ fields cnt : VARIANT,
      (tableRows.Columns wideInt (traced (oneRow 42 "alice").automation) (0, [])).2.2.2[0]?
        = some (.call (.GetProperty tableRows.rc "Fields") (.ok fields)) ∧
      (tableRows.Columns wideInt (traced (oneRow 42 "alice").automation) (0, [])).2.2.2[1]?
        = some (.call (.GetProperty fields.ToIDispatch "Count") (.ok cnt)) ∧
      ∃ names : List String,
        (tableRows.Columns wideInt (traced (oneRow 42 "alice").automation) (0, [])).1
          = some names ∧
        (names.length : Int) = wrapSigned wideInt.intBits cnt.Val := by
  refine ⟨(Columns_reads_when_count_differs_from_cache wideInt oneColumn.automation
      ⟨tableStmt, 3, 2, ["id", "name"]⟩ 0).1 (by decide), by decide, by decide, by decide,
      by decide, by decide, ?_⟩
  obtain ⟨fields, cnt, h0, h1, _, _, hok⟩ :=
    (Columns_reads_when_count_differs_from_cache wideInt (oneRow 42 "alice").automation
      tableRows 0).2 (by decide) (by decide)
  have hcnt : cnt = ⟨3, 2⟩ := by
    have h1c : (tableRows.Columns wideInt (traced (oneRow 42 "alice").automation)
        (0, [])).2.2.2[1]? = some (.call (.GetProperty 4 "Count") (.ok ⟨3, 2⟩)) := by decide
    rw [h1c] at h1
    simp only [Option.some.injEq, Event.call.injEq, Except.ok.injEq] at h1
    exact h1.2.symm
  subst hcnt
  obtain ⟨names, hn, _, hlen, _⟩ := hok (by decide) (by decide)
  exact ⟨fields, ⟨3, 2⟩, h0, h1, names, hn, hlen⟩

end Adodb
